import Mathlib

/-!
Verification of the p2p pool core of the mako repository (`src/src/node/pool.c`)
against its natural-language specification.

The development shallowly embeds the relevant parts of `pool.c`:

* the message framer (`btc_parser_*`, `btc_peer_send`);
* the per-peer stall-timeout policy (`btc_peer_maybe_timeout`);
* the `feefilter` handler (`btc_peer_on_feefilter`, `btc_peer_increase_ban`);
* the headers-first checkpoint sync (`btc_pool_on_headers`,
  `btc_pool_reset_chain`, `btc_pool_shift_header`, `btc_pool_clear_chain`);
* the loader-selection policy (`btc_pool_add_loader`, `btc_pool_set_loader`,
  `btc_pool_on_disconnect`);
* the `getblocks` / `getheaders` / `mempool` request servers
  (`btc_pool_on_getblocks`, `btc_pool_on_getheaders`, `btc_pool_on_mempool`,
  and the hash-continue fragment of `btc_peer_flush_data`);
* the in-flight request bookkeeping shared between POOL and the peers
  (`btc_pool_request_blocks`, `btc_pool_request_txs`,
  `btc_pool_resolve_block`, `btc_pool_resolve_tx`, `btc_pool_on_cmpctblock`,
  `btc_pool_on_blocktxn`, `btc_pool_remove_peer`).

External collaborators (CHAIN, MEMPOOL, the crypto hash, the message body
codec, `btc_header_verify`, `btc_header_hash`) are not part of `pool.c`; they
are modelled as parameters of the embedding, exactly as the spec treats them
(spec section 1: "Message body serialization is assumed available as a pure
codec").  32-byte hashes are modelled as natural numbers: `pool.c` only ever
copies and compares them for equality.
-/

namespace Mako

/-- Peer connection states, from `enum btc_peer_state` in pool.c. -/
inductive PeerState where
  | connecting
  | waitVersion
  | waitVerack
  | connected
  | dead
deriving DecidableEq, Repr

/-! ## Framer (`btc_parser_*` and the framing part of `btc_peer_send`) -/

namespace Framer

/-- Little-endian 32-bit read (`read32le` in bio.h); out-of-range bytes read 0. -/
def read32le (l : List Nat) : Nat :=
  l.getD 0 0 + 256 * l.getD 1 0 + 65536 * l.getD 2 0 + 16777216 * l.getD 3 0

/-- Little-endian 32-bit write (`btc_uint32_write`). -/
def le32 (x : Nat) : List Nat :=
  [x % 256, x / 256 % 256, x / 65536 % 256, x / 16777216 % 256]

/-- Modelled from the spec: `BTC_NET_MAX_MESSAGE` is 32 MiB (net.h is not
part of src/). -/
def maxMessage : Nat := 33554432

/-- External collaborators of the framer: the double-SHA256 hash
(`btc_hash256`, from the crypto library) and the message body codec
(`btc_msg_import` succeeding, i.e. MSG_CODEC keyed by the command string). -/
structure Codec where
  hash256 : List Nat → List Nat
  decodeOk : List Nat → List Nat → Bool

/-- Parser state, from `struct btc_parser_s`.  The `pending`/`total` byte
buffer is one list; `alloc` is memory management only and is omitted. -/
structure Parser where
  magic : Nat
  pending : List Nat
  waiting : Nat
  closed : Bool
  cmd : List Nat
  hasHeader : Bool
  checksum : Nat
deriving DecidableEq, Repr

/-- Fresh parser, from `btc_parser_init`. -/
def parserInit (magic : Nat) : Parser :=
  { magic := magic, pending := [], waiting := 24, closed := false,
    cmd := [], hasHeader := false, checksum := 0 }

/-- Translation of `btc_parser_parse_header`.  The C scan
`for (i = 0; data[i + 4] != 0 && i < 12; i++).` stops at the first NUL among
bytes 4..15 and fails if there is none (`i == 12`); the command characters
must be in 32..126 (a byte above 127 is a negative `char` and also fails);
the payload size must be at most `BTC_NET_MAX_MESSAGE`.  The C code copies
the command into `parser->cmd` before validating it; the copy is mirrored
here on the charset-failure path as well. -/
def parseHeader (p : Parser) (data : List Nat) : Parser × Bool :=
  if read32le data = p.magic then
    match ((data.drop 4).take 12).findIdx? (· == 0) with
    | none => (p, false)
    | some i =>
      let p := { p with cmd := (data.drop 4).take i }
      if p.cmd.all (fun ch => 32 ≤ ch && ch ≤ 126) then
        let size := read32le (data.drop 16)
        if size ≤ maxMessage then
          ({ p with waiting := size,
                    checksum := read32le (data.drop 20),
                    hasHeader := true }, true)
        else (p, false)
      else (p, false)
  else (p, false)

/-- Peer-side observable state threaded through `btc_parser_feed`: the
parser, the peer's ban score (`btc_peer_on_parse_error` adds 10 per error,
`btc_peer_increase_ban` reaching 100 bans the address via `btc_pool_ban`
and closes the peer, which latches `parser.closed`), and the list of
messages handed to the `on_msg` callback. -/
structure FeedState where
  parser : Parser
  banScore : Nat
  dead : Bool
  banned : Bool
  emitted : List (List Nat × List Nat)
deriving DecidableEq, Repr

/-- Fresh feed state for a peer whose parser was just initialized. -/
def initFeed (magic : Nat) : FeedState :=
  { parser := parserInit magic, banScore := 0, dead := false,
    banned := false, emitted := [] }

/-- Effect of the parser error callback: `btc_peer_on_parse_error` returns
immediately on a dead peer, otherwise adds 10 ban score; when the score
reaches 100 `btc_peer_increase_ban` calls `btc_pool_ban` (address banned,
peer closed) and `btc_peer_close` sets `parser.closed`. -/
def onParseError (st : FeedState) : FeedState :=
  if st.dead then st
  else
    let ban := st.banScore + 10
    if 100 ≤ ban then
      { st with banScore := ban, banned := true, dead := true,
                parser := { st.parser with closed := true } }
    else { st with banScore := ban }

/-- One iteration of the `while` loop in `btc_parser_feed`: take
`parser->waiting` bytes, run `btc_parser_parse` on them, and fire the error
callback if it fails (the parser is never closed by `btc_parser_parse`
itself, so the `!parser->closed` guard before `on_error` holds here). -/
def feedStep (c : Codec) (st : FeedState) : FeedState :=
  let wait := st.parser.waiting
  let chunk := st.parser.pending.take wait
  let rest := st.parser.pending.drop wait
  if st.parser.hasHeader then
    let p := { st.parser with waiting := 24, hasHeader := false, pending := rest }
    if read32le (c.hash256 chunk) = p.checksum then
      if c.decodeOk p.cmd chunk then
        { st with parser := p, emitted := st.emitted ++ [(p.cmd, chunk)] }
      else onParseError { st with parser := p }
    else onParseError { st with parser := p }
  else
    match parseHeader st.parser chunk with
    | (p, true) => { st with parser := { p with pending := rest } }
    | (p, false) => onParseError { st with parser := { p with pending := rest } }

/-- The `while (!parser->closed && len >= parser->waiting)` loop of
`btc_parser_feed`, with fuel.  Each executed iteration strictly decreases
`2 * pending.length + (hasHeader ? 1 : 0)`, so `2 * pending.length + 2`
fuel always reaches the fixpoint. -/
def feedLoop (c : Codec) : Nat → FeedState → FeedState
  | 0, st => st
  | fuel + 1, st =>
    if st.parser.closed = false ∧ st.parser.waiting ≤ st.parser.pending.length then
      feedLoop c fuel (feedStep c st)
    else st

/-- Translation of `btc_parser_feed`: append the new bytes (a closed parser
ignores them, see `btc_parser_append`), then run the parse loop. -/
def feed (c : Codec) (st : FeedState) (data : List Nat) : FeedState :=
  if st.parser.closed then feedLoop c (2 * st.parser.pending.length + 2) st
  else
    let st := { st with parser := { st.parser with pending := st.parser.pending ++ data } }
    feedLoop c (2 * st.parser.pending.length + 2) st

/-- A wire message as the framing layer sees it: the command string bytes
(`msg->cmd`, without the NUL padding) and the exported payload bytes
(`btc_msg_export` output).  Body structure round-tripping is MSG_CODEC's
business and is out of scope per the spec. -/
structure PMsg where
  cmd : List Nat
  body : List Nat
deriving DecidableEq, Repr

/-- Framing part of `btc_peer_send`: 4-byte LE magic, 12-byte NUL-padded
command, 4-byte LE payload length, first 4 bytes of `btc_hash256` over the
payload, then the payload. -/
def encodeFrame (c : Codec) (magic : Nat) (m : PMsg) : List Nat :=
  le32 magic ++ m.cmd ++ List.replicate (12 - m.cmd.length) 0
    ++ le32 m.body.length ++ (c.hash256 m.body).take 4 ++ m.body

end Framer

/-! ## Fee filter (`btc_peer_on_feefilter`, `btc_peer_increase_ban`) -/

namespace Fee

/-- Modelled from the spec: `BTC_MAX_MONEY` is the maximum money supply,
21 million coins of 10^8 satoshi (consensus.h is not part of src/). -/
def maxMoney : Int := 2100000000000000

/-- Slice of the peer state touched by the `feefilter` handler. -/
structure Peer where
  feeRate : Int
  banScore : Nat
  closed : Bool
  banned : Bool
deriving DecidableEq, Repr

/-- Translation of `btc_peer_increase_ban` combined with its consequences:
reaching 100 logs, calls `btc_pool_ban` (address banned, and the peer, being
registered in the peers map, is closed). -/
def increaseBan (p : Peer) (score : Nat) : Peer :=
  let ban := p.banScore + score
  if 100 ≤ ban then { p with banScore := ban, banned := true, closed := true }
  else { p with banScore := ban }

/-- Translation of `btc_peer_on_feefilter`: an out-of-range rate draws 100
ban score and returns without touching `fee_rate`; otherwise `fee_rate` is
assigned the message's rate. -/
def onFeefilter (p : Peer) (rate : Int) : Peer :=
  if rate < 0 ∨ maxMoney < rate then increaseBan p 100
  else { p with feeRate := rate }

end Fee

/-! ## Stall timeouts (`btc_peer_maybe_timeout`) -/

namespace Timeout

/-- Modelled from the spec: `BTC_NET_PONG_VERSION` (the last protocol
version whose `pong` lacks a nonce; net.h is not part of src/). -/
def pongVersion : Int := 60000

/-- Slice of the peer state read by `btc_peer_maybe_timeout`.  The three
outstanding-request tables only contribute their timestamp values here. -/
structure TPeer where
  gbTime : Int
  ghTime : Int
  syncing : Bool
  loader : Bool
  blockTime : Int
  blockTimes : List Int
  txTimes : List Int
  compactTimes : List Int
  time : Int
  version : Int
  lastSend : Int
  lastRecv : Int
  challenge : Nat
  lastPing : Int
deriving DecidableEq, Repr

/-- Reason strings logged by `btc_peer_maybe_timeout` before closing. -/
inductive StallReason where
  | inv
  | headers
  | block
  | blockReq
  | txReq
  | cmpct
  | noMessage
  | send
  | recv
  | ping
deriving DecidableEq, Repr

/-- Translation of `btc_peer_maybe_timeout`: returns the reason for which
the peer is closed at time `now`, or `none`.  `synced` is
`btc_chain_synced(chain)`.  The branch order follows the source exactly;
note that the 4x multiplier for pre-pong peers is applied to the recv
threshold only. -/
def maybeTimeout (synced : Bool) (p : TPeer) (now : Int) : Option StallReason :=
  if ¬synced ∧ p.gbTime ≠ -1 ∧ p.gbTime + 30000 < now then some .inv
  else if p.ghTime ≠ -1 ∧ p.ghTime + 60000 < now then some .headers
  else if p.syncing ∧ p.loader ∧ ¬synced ∧ p.blockTime + 120000 < now then some .block
  else if (synced ∨ ¬p.syncing) ∧ p.blockTimes.any (fun t => t + 120000 < now) then some .blockReq
  else if (synced ∨ ¬p.syncing) ∧ p.txTimes.any (fun t => t + 120000 < now) then some .txReq
  else if (synced ∨ ¬p.syncing) ∧ p.compactTimes.any (fun t => t + 30000 < now) then some .cmpct
  else if p.time + 60000 < now then
    let mult : Int := if p.version ≤ pongVersion then 4 else 1
    if p.lastRecv = 0 ∨ p.lastSend = 0 then some .noMessage
    else if p.lastSend + 20 * 60000 < now then some .send
    else if p.lastRecv + 20 * 60000 * mult < now then some .recv
    else if p.challenge ≠ 0 ∧ p.lastPing + 20 * 60000 < now then some .ping
    else none
  else none

end Timeout

/-! ## Headers-first checkpoint sync (`btc_pool_on_headers` and friends) -/

namespace Hdr

/-- Block header as the sync engine reads it: `prev_block` plus the rest of
the fields, which pool.c only ever passes whole to the external
`btc_header_verify` / `btc_header_hash`. -/
structure Header where
  prevBlock : Nat
  rest : Nat
deriving DecidableEq, Repr

/-- Node of the singly-linked headers chain, from `struct btc_hdrnode_s`. -/
structure HdrNode where
  hash : Nat
  height : Int
deriving DecidableEq, Repr

/-- Hardcoded checkpoint, from `btc_checkpoint_t` in the network profile. -/
structure Checkpoint where
  hash : Nat
  height : Int
deriving DecidableEq, Repr

/-- External context of the sync engine: `btc_header_verify` and
`btc_header_hash` (header library), and the network profile fields
pool.c reads (`network->checkpoints`, `network->last_checkpoint`) together
with the `checkpoints_enabled` configuration flag. -/
structure HCfg where
  verify : Header → Bool
  hashH : Header → Nat
  checkpointList : List Checkpoint
  lastCheckpoint : Int
  checkpointsEnabled : Bool

/-- Slice of the peer state touched by the headers handler. -/
structure HPeer where
  loader : Bool
  ghTime : Int
  banScore : Nat
  closed : Bool
  banned : Bool
  blockTime : Int
deriving DecidableEq, Repr

/-- Slice of the pool state owned by the sync engine: the `checkpoints`
mode flag, `header_tip` (NULL when the mode is off), and the headers chain
`header_head .. header_tail` as a list. -/
structure HPool where
  checkpoints : Bool
  headerTip : Option Checkpoint
  chain : List HdrNode
deriving DecidableEq, Repr

/-- Combined state for the headers handler. -/
structure HState where
  pool : HPool
  peer : HPeer
deriving DecidableEq, Repr

/-- Translation of `btc_peer_increase_ban` (see `Fee.increaseBan`) for the
headers-handler peer slice. -/
def increaseBan (p : HPeer) (score : Nat) : HPeer :=
  let ban := p.banScore + score
  if 100 ≤ ban then { p with banScore := ban, banned := true, closed := true }
  else { p with banScore := ban }

/-- Translation of `btc_peer_close` for the headers-handler peer slice. -/
def closePeer (p : HPeer) : HPeer :=
  { p with closed := true }

/-- Translation of `btc_pool_next_tip`: first checkpoint strictly above the
given height (the C code aborts when there is none). -/
def nextTip (cfg : HCfg) (height : Int) : Option Checkpoint :=
  cfg.checkpointList.find? (fun c => height < c.height)

/-- Translation of `btc_pool_clear_chain`. -/
def clearChain (pool : HPool) : HPool :=
  { pool with checkpoints := false, headerTip := none, chain := [] }

/-- Translation of `btc_pool_reset_chain`; `tip` is the current chain tip
entry (`btc_chain_tip`), of which only hash and height are read. -/
def resetChain (cfg : HCfg) (pool : HPool) (tip : HdrNode) : HPool :=
  if ¬cfg.checkpointsEnabled then pool
  else if cfg.checkpointList = [] then pool
  else
    let pool := clearChain pool
    if tip.height < cfg.lastCheckpoint then
      { pool with checkpoints := true,
                  headerTip := nextTip cfg tip.height,
                  chain := [tip] }
    else pool

/-- Translation of `btc_pool_shift_header` (the chain is nonempty whenever
it is called; an empty chain would dereference NULL in C). -/
def shiftHeader (pool : HPool) : HPool :=
  match pool.chain with
  | [] => pool
  | _ :: rest => { pool with chain := rest }

/-- Outcome of the header-batch loop in `btc_pool_on_headers`. -/
inductive HdrOutcome where
  | ok
  | badHeader
  | badChain
  | badCheckpoint
deriving DecidableEq, Repr

/-- The `for` loop of `btc_pool_on_headers`: verify PoW, check chaining
onto `header_tail`, check the checkpoint height/hash, append.  Returns the
(partially) extended chain, whether the batch contained the checkpoint, and
how the loop ended.  Nodes appended before a failure stay appended, exactly
as in the C code. -/
def onHeadersGo (cfg : HCfg) (tip : Checkpoint) :
    List Header → List HdrNode → Bool → List HdrNode × Bool × HdrOutcome
  | [], chain, cp => (chain, cp, .ok)
  | hdr :: restMsg, chain, cp =>
    let last := chain.getLastD ⟨0, 0⟩
    let height := last.height + 1
    if ¬cfg.verify hdr then (chain, cp, .badHeader)
    else if hdr.prevBlock ≠ last.hash then (chain, cp, .badChain)
    else
      let hash := cfg.hashH hdr
      if height = tip.height ∧ hash ≠ tip.hash then (chain, cp, .badCheckpoint)
      else
        onHeadersGo cfg tip restMsg (chain ++ [⟨hash, height⟩])
          (cp ∨ height = tip.height)

/-- Translation of `btc_pool_on_headers`.  The `CHECK(header_head != NULL)`
assertion and the non-NULL `header_tip` that `checkpoints == 1` guarantees
are modelled as no-change early returns (in C they abort the process).  The
checkpoint path shifts `header_head` and goes on to request blocks
(`btc_pool_resolve_headers`, which does not modify the chain); the other
path requests more headers.  `now` is `btc_ms()`. -/
def onHeaders (cfg : HCfg) (st : HState) (msg : List Header) (now : Int) : HState :=
  let st := { st with peer := { st.peer with ghTime := -1 } }
  if ¬st.pool.checkpoints then st
  else if ¬st.peer.loader then st
  else if msg = [] then st
  else if 2000 < msg.length then { st with peer := increaseBan st.peer 100 }
  else if st.pool.chain = [] then st
  else
    match st.pool.headerTip with
    | none => st
    | some tip =>
      match onHeadersGo cfg tip msg st.pool.chain false with
      | (chain, _, .badHeader) =>
        { pool := { st.pool with chain := chain }, peer := increaseBan st.peer 100 }
      | (chain, _, .badChain) =>
        { pool := { st.pool with chain := chain }, peer := closePeer st.peer }
      | (chain, _, .badCheckpoint) =>
        { pool := { st.pool with chain := chain }, peer := closePeer st.peer }
      | (chain, cp, .ok) =>
        let st := { pool := { st.pool with chain := chain },
                    peer := { st.peer with blockTime := now } }
        if cp then { st with pool := shiftHeader st.pool }
        else st

/-- Chain operations named by the spec as modifying the headers chain:
initialization/reset, appending a batch via the headers handler, shifting
the head, and clearing. -/
inductive HdrStep (cfg : HCfg) : HState → HState → Prop
  | reset (st : HState) (tip : HdrNode) :
      HdrStep cfg st { st with pool := resetChain cfg st.pool tip }
  | clear (st : HState) :
      HdrStep cfg st { st with pool := clearChain st.pool }
  | headers (st : HState) (msg : List Header) (now : Int) :
      HdrStep cfg st (onHeaders cfg st msg now)
  | shift (st : HState) :
      HdrStep cfg st { st with pool := shiftHeader st.pool }

/-- Contiguity of the headers chain (invariant I5 / P5): adjacent nodes
have consecutive heights, and each node after the first is the hash of a
header whose `prev_block` is the preceding node's hash. -/
def Linked (hashH : Header → Nat) : List HdrNode → Prop
  | [] => True
  | [_] => True
  | a :: b :: rest =>
    (b.height = a.height + 1 ∧ ∃ hdr : Header, hdr.prevBlock = a.hash ∧ hashH hdr = b.hash)
      ∧ Linked hashH (b :: rest)

end Hdr

/-! ## Loader selection (`btc_pool_add_loader`, `btc_pool_set_loader`,
`btc_pool_on_disconnect`) -/

namespace Loader

/-- Slice of the peer state read by the loader-selection policy. -/
structure LPeer where
  outbound : Bool
  state : PeerState
  loader : Bool
deriving DecidableEq, Repr

instance : Inhabited LPeer := ⟨⟨false, .dead, false⟩⟩

/-- Pool state for loader selection: the peer iteration list
(`peers.head .. peers.tail`; `peers.load` is the peer whose `loader` flag
is set) and the headers-chain state reset on loader loss. -/
structure LPool where
  peers : List LPeer
  hdr : Hdr.HPool
deriving DecidableEq, Repr

/-- Translation of `btc_pool_set_loader` (its `CHECK`s — outbound peer, no
current loader — are hypotheses of the theorems below).  The final
`btc_pool_send_sync` call sends messages but changes no loader state. -/
def setLoader (s : LPool) (i : Nat) : LPool :=
  { s with peers := s.peers.set i { s.peers.getD i default with loader := true } }

/-- Translation of `btc_pool_add_loader`: repurpose the first outbound peer
in the iteration list — the C loop checks only `peer->outbound`, not the
connection state — and otherwise dial a new outbound peer.  `dial` stands
for `btc_pool_get_addr` + `btc_pool_create_outbound` (ADDRMAN and the
socket layer are external): `none` when no usable address is available,
otherwise the freshly created peer, which `btc_peers_add` appends to the
iteration list before `btc_pool_set_loader` runs. -/
def addLoader (s : LPool) (dial : Option LPeer) : LPool × Bool :=
  match s.peers.findIdx? (·.outbound) with
  | some i => (setLoader s i, true)
  | none =>
    match dial with
    | none => (s, false)
    | some q =>
      let n := s.peers.length
      let s := { s with peers := s.peers ++ [{ q with loader := false }] }
      (setLoader s n, true)

/-- Translation of `btc_pool_on_disconnect` restricted to loader/chain
effects: remember whether the peer was the loader, remove it
(`btc_pool_remove_peer` / `btc_peers_remove`, which clears `peers.load`),
and reset the headers chain only when the loader was lost while
`pool->checkpoints` is set.  Nonce removal and the possible resync touch
neither the peer list shape nor the chain fields modelled here. -/
def onDisconnect (cfg : Hdr.HCfg) (s : LPool) (i : Nat) (tip : Hdr.HdrNode) : LPool :=
  let wasLoader := (s.peers.getD i default).loader
  let s := { s with peers := s.peers.eraseIdx i }
  if wasLoader ∧ s.hdr.checkpoints then { s with hdr := Hdr.resetChain cfg s.hdr tip }
  else s

end Loader

/-! ## Request serving (`btc_pool_on_getblocks`, `btc_pool_on_getheaders`,
`btc_pool_on_mempool`, hash-continue fragment of `btc_peer_flush_data`) -/

namespace Serve

/-- Main-chain entry as the servers read it: the block hash and the header
(`entry->header`, passed whole to the headers reply). -/
structure Entry where
  hash : Nat
  header : Nat
deriving DecidableEq, Repr

/-- Slice of the peer state touched by the servers. -/
structure SPeer where
  hashContinue : Nat
  closed : Bool
deriving DecidableEq, Repr

/-- The `while (entry != NULL)` walk of `btc_pool_on_getblocks` over the
entries after the locator fork point.  `stopLeft` is the distance to the
`stop` entry when it lies ahead (pointer equality in C); the walk breaks at
the stop entry, and after pushing the 500th hash it records that hash as
the continuation and breaks. -/
def gbGo : List Entry → Option Nat → List Nat → List Nat × Option Nat
  | [], _, acc => (acc.reverse, none)
  | e :: rest, stopLeft, acc =>
    if stopLeft = some 0 then (acc.reverse, none)
    else if acc.length + 1 = 500 then ((e.hash :: acc).reverse, some e.hash)
    else gbGo rest (stopLeft.map (· - 1)) (e.hash :: acc)

/-- Distance to the stop entry, defaulting to the remaining chain length
when there is no stop entry ahead. -/
def stopDist (stopLeft : Option Nat) (len : Nat) : Nat :=
  stopLeft.getD len

/-- Entries the getblocks walk starts from: `btc_chain_find_locator`
(external CHAIN call, modelled by the index `locIdx` of the entry it
returns) followed by `entry = entry->next`. -/
def gbRemaining (chain : List Entry) (locIdx : Option Nat) : List Entry :=
  match locIdx with
  | none => []
  | some i => chain.drop (i + 1)

/-- Offset of the `stop` entry (`btc_chain_by_hash(msg->stop)`) relative to
the first walked entry; `none` when the stop entry is absent or behind the
walk, in which case pointer equality never fires. -/
def gbStopLeft (chain : List Entry) (locIdx : Option Nat) (stopHash : Nat) : Option Nat :=
  match chain.findIdx? (fun e => e.hash == stopHash), locIdx with
  | some j, some i => if i + 1 ≤ j then some (j - (i + 1)) else none
  | _, _ => none

/-- Translation of `btc_pool_on_getblocks`: nothing while unsynced;
otherwise walk from the locator successor, record the continuation hash on
truncation, and send the inv (the C code sends it even when empty). -/
def onGetblocks (synced : Bool) (chain : List Entry) (locIdx : Option Nat)
    (stopHash : Nat) (p : SPeer) : SPeer × Option (List Nat) :=
  if synced = false then (p, none)
  else
    let rem := gbRemaining chain locIdx
    let (hashes, cont) := gbGo rem (gbStopLeft chain locIdx stopHash) []
    let p :=
      match cont with
      | some h => { p with hashContinue := h }
      | none => p
    (p, some hashes)

/-- Hash-continue fragment of `btc_peer_flush_data`: after serving an item
whose hash equals `peer->hash_continue`, send a one-element inv of the
current chain tip and zero the marker (`btc_hash_init`). -/
def serveItemContinue (p : SPeer) (itemHash tipHash : Nat) : SPeer × Option (List Nat) :=
  if itemHash = p.hashContinue then ({ p with hashContinue := 0 }, some [tipHash])
  else (p, none)

/-- The header walk of `btc_pool_on_getheaders`: push the entry's header,
break after the stop entry (its header is included) or at 2000 headers. -/
def ghGo : List Entry → Option Nat → List Nat → List Nat
  | [], _, acc => acc.reverse
  | e :: rest, stopLeft, acc =>
    let acc := e.header :: acc
    if stopLeft = some 0 then acc.reverse
    else if acc.length = 2000 then acc.reverse
    else ghGo rest (stopLeft.map (· - 1)) acc

/-- Translation of `btc_pool_on_getheaders`: nothing while unsynced; with a
nonempty locator, walk from the locator successor to the stop entry; with
an empty locator, serve exactly the header of the stop entry when known.
The headers message is always sent. -/
def onGetheaders (synced : Bool) (chain : List Entry) (locLen : Nat)
    (locIdx : Option Nat) (stopHash : Nat) (p : SPeer) : SPeer × Option (List Nat) :=
  if synced = false then (p, none)
  else if 0 < locLen then
    (p, some (ghGo (gbRemaining chain locIdx) (gbStopLeft chain locIdx stopHash) []))
  else
    match chain.findIdx? (fun e => e.hash == stopHash) with
    | none => (p, some [])
    | some j => (p, some (ghGo (chain.drop j) (some 0) []))

/-- Batching of the mempool snapshot in `btc_pool_on_mempool`: an inv is
sent every 1000 entries and once more for a nonempty remainder. -/
def mempoolBatches : List Nat → List Nat → List (List Nat)
  | [], acc => if acc.length > 0 then [acc.reverse] else []
  | h :: rest, acc =>
    let acc := h :: acc
    if acc.length = 1000 then acc.reverse :: mempoolBatches rest []
    else mempoolBatches rest acc

/-- Translation of `btc_pool_on_mempool`: nothing while unsynced; close the
peer when BIP37 is disabled; otherwise stream the mempool snapshot. -/
def onMempool (synced bip37 : Bool) (mempool : List Nat) (p : SPeer) :
    SPeer × List (List Nat) :=
  if synced = false then (p, [])
  else if bip37 = false then ({ p with closed := true }, [])
  else (p, mempoolBatches mempool [])

end Serve

/-! ## In-flight request bookkeeping (POOL's three hash sets and the
per-peer `block_map` / `tx_map` / `compact_map` tables) -/

namespace Flight

/-- Membership test of a per-peer hash table (`btc_hashtab_has` /
`btc_hashmap_has`); keys are unique in the C hash tables. -/
def tabHas (m : List (Nat × Int)) (h : Nat) : Bool :=
  m.any (fun kv => kv.1 == h)

/-- Insertion into a per-peer hash table (`btc_hashtab_put` /
`btc_hashmap_put` return 0 and leave the table unchanged on an existing
key). -/
def tabPut (m : List (Nat × Int)) (h : Nat) (v : Int) : List (Nat × Int) :=
  if tabHas m h then m else (h, v) :: m

/-- Deletion from a per-peer hash table (`btc_hashtab_del` /
`btc_hashmap_del`); a hash table holds at most one entry per key, so
removal is a filter. -/
def tabDel (m : List (Nat × Int)) (h : Nat) : List (Nat × Int) :=
  m.filter (fun kv => ¬ kv.1 == h)

/-- Insertion into one of POOL's hash sets (`btc_hashset_put`). -/
def setPut (s : List Nat) (h : Nat) : List Nat :=
  if s.contains h then s else h :: s

/-- Deletion from one of POOL's hash sets (`btc_hashset_del`); a hash set
holds each element at most once, so removal is a filter. -/
def setDel (s : List Nat) (h : Nat) : List Nat :=
  s.filter (fun x => ¬ x == h)

/-- Slice of the peer state carrying the three outstanding-request tables.
`block_map` and `tx_map` map hashes to "expected by" timestamps; for
`compact_map` the stored partial compact block contributes only its `now`
timestamp here. -/
structure FPeer where
  state : PeerState
  banScore : Nat
  blockMap : List (Nat × Int)
  txMap : List (Nat × Int)
  compactMap : List (Nat × Int)
deriving DecidableEq, Repr

instance : Inhabited FPeer := ⟨⟨.dead, 0, [], [], []⟩⟩

/-- POOL state relevant to the in-flight correspondence: the peer list and
the three by-value hash sets. -/
structure FPool where
  peers : List FPeer
  blockSet : List Nat
  txSet : List Nat
  compactSet : List Nat
deriving DecidableEq, Repr

/-- Initial pool (`btc_pool_create`): no peers, empty sets. -/
def initPool : FPool :=
  { peers := [], blockSet := [], txSet := [], compactSet := [] }

/-- Peer creation plus registration (`btc_peer_create` makes all three
tables empty; `btc_peers_add` appends to the iteration list).  The state
tag varies with the connection path and later handshake transitions. -/
def addPeer (s : FPool) (st : PeerState) : FPool :=
  { s with peers := s.peers ++ [{ state := st, banScore := 0, blockMap := [], txMap := [], compactMap := [] }] }

/-- Handshake / close state transitions (`btc_peer_close` and the
version/verack handlers): only the state tag changes, never the tables. -/
def setState (s : FPool) (i : Nat) (st : PeerState) : FPool :=
  match s.peers.get? i with
  | none => s
  | some peer => { s with peers := s.peers.set i { peer with state := st } }

/-- Peer-side ban bookkeeping (`btc_peer_increase_ban` plus the close it
triggers at 100); the tables are untouched. -/
def banPeer (p : FPeer) (score : Nat) : FPeer :=
  let ban := p.banScore + score
  if 100 ≤ ban then { p with banScore := ban, state := .dead }
  else { p with banScore := ban }

/-- The registration loop of `btc_pool_request_blocks` /
`btc_pool_request_txs`: skip hashes already in POOL's set, otherwise insert
the hash into POOL's set and the peer's table with the current "expected
by" time, which advances 100 ms (blocks) or 50 ms (txs) per item once the
chain is synced.  Returns the updated set, table, and the number of inv
items built. -/
def requestGo (synced : Bool) (spread : Int) :
    List Nat → Int → List Nat → List (Nat × Int) → Nat →
    List Nat × List (Nat × Int) × Nat
  | [], _, pset, pmap, count => (pset, pmap, count)
  | h :: rest, now, pset, pmap, count =>
    if pset.contains h then requestGo synced spread rest now pset pmap count
    else
      let pset := setPut pset h
      let pmap := tabPut pmap h now
      let now := if synced then now + spread else now
      requestGo synced spread rest now pset pmap (count + 1)

/-- Modelled from the spec: `BTC_NET_MAX_BLOCK_REQUEST` and
`BTC_NET_MAX_TX_REQUEST` default to 16 (net.h is not part of src/). -/
def maxBlockRequest : Nat := 16

/-- Translation of `btc_pool_request_blocks`: nothing unless the peer is
`CONNECTED`; register the new hashes; an empty inv returns early; a peer
whose table reached `MAX_BLOCK_REQUEST` is closed (its registrations stay
until disconnect), otherwise the getdata is sent. -/
def requestBlocks (s : FPool) (i : Nat) (hashes : List Nat) (now : Int)
    (synced : Bool) : FPool :=
  match s.peers.get? i with
  | none => s
  | some peer =>
    if peer.state ≠ .connected then s
    else
      match requestGo synced 100 hashes now s.blockSet peer.blockMap 0 with
      | (pset, pmap, count) =>
        let peer := { peer with blockMap := pmap }
        if count = 0 then { s with blockSet := pset, peers := s.peers.set i peer }
        else
          let peer :=
            if maxBlockRequest ≤ pmap.length then { peer with state := .dead } else peer
          { s with blockSet := pset, peers := s.peers.set i peer }

/-- Translation of `btc_pool_request_txs` (identical shape, 50 ms spread,
`tx_map`, `MAX_TX_REQUEST`). -/
def requestTxs (s : FPool) (i : Nat) (hashes : List Nat) (now : Int)
    (synced : Bool) : FPool :=
  match s.peers.get? i with
  | none => s
  | some peer =>
    if peer.state ≠ .connected then s
    else
      match requestGo synced 50 hashes now s.txSet peer.txMap 0 with
      | (pset, pmap, count) =>
        let peer := { peer with txMap := pmap }
        if count = 0 then { s with txSet := pset, peers := s.peers.set i peer }
        else
          let peer :=
            if maxBlockRequest ≤ pmap.length then { peer with state := .dead } else peer
          { s with txSet := pset, peers := s.peers.set i peer }

/-- Translation of `btc_pool_resolve_block`: delete the hash from the
peer's table; when it was there, `CHECK` that deleting it from POOL's set
succeeds too. -/
def resolveBlock (s : FPool) (i : Nat) (h : Nat) : FPool :=
  match s.peers.get? i with
  | none => s
  | some peer =>
    if tabHas peer.blockMap h then
      { s with peers := s.peers.set i { peer with blockMap := tabDel peer.blockMap h },
               blockSet := setDel s.blockSet h }
    else s

/-- Translation of `btc_pool_resolve_tx`. -/
def resolveTx (s : FPool) (i : Nat) (h : Nat) : FPool :=
  match s.peers.get? i with
  | none => s
  | some peer =>
    if tabHas peer.txMap h then
      { s with peers := s.peers.set i { peer with txMap := tabDel peer.txMap h },
               txSet := setDel s.txSet h }
    else s

/-- Translation of `btc_pool_on_cmpctblock` restricted to its effect on the
outstanding-request structures.  `h` is the announced block hash and `now`
is `btc_ms()`.  The external results are parameters: `compactAllowed`
bundles the `bip152_enabled` and compact-negotiation guards, `headerOk` is
`btc_header_verify`, `setupRc` is `btc_cmpct_setup`, `fillOk` is
`btc_cmpct_fill_mempool`.  A full reconstruction hands the block to
`btc_pool_add_block`, whose table effect is `btc_pool_resolve_block`
(its later chain callbacks are separate steps).  The
`CHECK(!btc_hashset_has(pool->block_map, hash))` on the mode-1 unrequested
path aborts the process in C; the abort is modelled as leaving the state
unchanged. -/
def onCmpctblock (s : FPool) (i : Nat) (h : Nat) (now : Int)
    (compactAllowed : Bool) (blockMode : Nat)
    (headerOk : Bool) (setupRc : Int) (fillOk : Bool) : FPool :=
  match s.peers.get? i with
  | none => s
  | some peer =>
    if ¬compactAllowed then { s with peers := s.peers.set i { peer with state := .dead } }
    else if tabHas peer.compactMap h then s
    else if s.compactSet.contains h then s
    else if ¬tabHas peer.blockMap h ∧ blockMode ≠ 1 then
      { s with peers := s.peers.set i { peer with state := .dead } }
    else if ¬tabHas peer.blockMap h ∧ s.blockSet.contains h then s
    else
      let unrequested := ¬tabHas peer.blockMap h
      let peer :=
        if unrequested then { peer with blockMap := tabPut peer.blockMap h now }
        else peer
      let s := { s with peers := s.peers.set i peer,
                        blockSet := if unrequested then setPut s.blockSet h else s.blockSet }
      if ¬headerOk then { s with peers := s.peers.set i (banPeer peer 100) }
      else if setupRc = -1 then { s with peers := s.peers.set i (banPeer peer 100) }
      else if setupRc = 0 then { s with peers := s.peers.set i (banPeer peer 10) }
      else if fillOk then resolveBlock s i h
      else if 15 ≤ peer.compactMap.length then
        { s with peers := s.peers.set i { peer with state := .dead } }
      else
        { s with compactSet := setPut s.compactSet h,
                 peers := s.peers.set i { peer with compactMap := tabPut peer.compactMap h now } }

/-- Translation of `btc_pool_on_blocktxn` restricted to its effect on the
outstanding-request structures: an unknown hash is only logged; otherwise
the partial block leaves both compact structures, and a successful fill
hands the block to `btc_pool_add_block` (table effect
`btc_pool_resolve_block`), while a short response requests the full block
and adds 10 ban score. -/
def onBlocktxn (s : FPool) (i : Nat) (h : Nat) (fillOk : Bool) : FPool :=
  match s.peers.get? i with
  | none => s
  | some peer =>
    if ¬tabHas peer.compactMap h then s
    else
      let peer := { peer with compactMap := tabDel peer.compactMap h }
      let s := { s with compactSet := setDel s.compactSet h,
                        peers := s.peers.set i peer }
      if fillOk then resolveBlock s i h
      else { s with peers := s.peers.set i (banPeer peer 10) }

/-- Translation of `btc_pool_remove_peer`: remove the peer from the
iteration list and delete every key of its three tables from POOL's
by-value sets (each deletion is `CHECK`ed to succeed). -/
def removePeer (s : FPool) (i : Nat) : FPool :=
  match s.peers.get? i with
  | none => s
  | some peer =>
    { peers := s.peers.eraseIdx i,
      blockSet := peer.blockMap.foldl (fun acc kv => setDel acc kv.1) s.blockSet,
      txSet := peer.txMap.foldl (fun acc kv => setDel acc kv.1) s.txSet,
      compactSet := peer.compactMap.foldl (fun acc kv => setDel acc kv.1) s.compactSet }

/-- Operations of pool.c that touch POOL's hash sets or the per-peer
tables, as named by invariant P1's claim: requesting blocks or txs after an
inv, resolving a hash on block/tx/notfound receipt, registering a compact
block (`cmpctblock` / `blocktxn`), removing a peer on disconnect, plus peer
creation and the state transitions. -/
inductive Step : FPool → FPool → Prop
  | addPeer (s : FPool) (st : PeerState) : Step s (addPeer s st)
  | setState (s : FPool) (i : Nat) (st : PeerState) : Step s (setState s i st)
  | requestBlocks (s : FPool) (i : Nat) (hashes : List Nat) (now : Int) (synced : Bool) :
      Step s (requestBlocks s i hashes now synced)
  | requestTxs (s : FPool) (i : Nat) (hashes : List Nat) (now : Int) (synced : Bool) :
      Step s (requestTxs s i hashes now synced)
  | resolveBlock (s : FPool) (i : Nat) (h : Nat) : Step s (resolveBlock s i h)
  | resolveTx (s : FPool) (i : Nat) (h : Nat) : Step s (resolveTx s i h)
  | cmpctblock (s : FPool) (i : Nat) (h : Nat) (now : Int) (ca : Bool) (bm : Nat)
      (hok : Bool) (rc : Int) (fill : Bool) :
      Step s (onCmpctblock s i h now ca bm hok rc fill)
  | blocktxn (s : FPool) (i : Nat) (h : Nat) (fill : Bool) : Step s (onBlocktxn s i h fill)
  | removePeer (s : FPool) (i : Nat) : Step s (removePeer s i)

/-- Pool states reachable from the freshly created pool. -/
inductive Reachable : FPool → Prop
  | init : Reachable initPool
  | step {s s' : FPool} : Reachable s → Step s s' → Reachable s'

/-- Number of peers whose table (selected by `proj`) contains `h`. -/
def holders (proj : FPeer → List (Nat × Int)) (peers : List FPeer) (h : Nat) : Nat :=
  peers.countP (fun p => tabHas (proj p) h)

/-- The inductive form of invariant P1 for one set/table family: a hash is
in POOL's set iff exactly one peer holds it, and a hash outside the set is
held by no peer. -/
def FamInv (proj : FPeer → List (Nat × Int)) (peers : List FPeer) (s : List Nat) : Prop :=
  ∀ h : Nat, holders proj peers h = if s.contains h then 1 else 0

/-- Invariant P1 for all three families. -/
def Inv (s : FPool) : Prop :=
  FamInv (·.blockMap) s.peers s.blockSet
    ∧ FamInv (·.txMap) s.peers s.txSet
    ∧ FamInv (·.compactMap) s.peers s.compactSet

end Flight

/-! ## Concrete instances used to evaluate the model on explicit inputs -/

/-- Concrete codec: a constant 32-byte hash and a body codec accepting
everything; the framing layer treats both as black boxes. -/
def exCodec : Framer.Codec :=
  { hash256 := fun _ => List.replicate 32 0, decodeOk := fun _ _ => true }

/-- Concrete wire message: command "ping" (bytes 112 105 110 103) with a
one-byte payload. -/
def exMsg : Framer.PMsg :=
  { cmd := [112, 105, 110, 103], body := [7] }

/-- Concrete peer snapshot for the stall-timer: connected long ago, quiet
request tables, an old (pre-pong) protocol version, last send 21 minutes
before `now = 1260002`, recent recv. -/
def exTPeer : Timeout.TPeer :=
  { gbTime := -1, ghTime := -1, syncing := false, loader := false,
    blockTime := 0, blockTimes := [], txTimes := [], compactTimes := [],
    time := 0, version := 60000, lastSend := 1, lastRecv := 1260000,
    challenge := 0, lastPing := -1 }

/-- Concrete sync context: trusting config, first checkpoint at height 1
with hash 5, header hash read off the `rest` field. -/
def exHCfg : Hdr.HCfg :=
  { verify := fun _ => true, hashH := fun h => h.rest,
    checkpointList := [⟨5, 1⟩, ⟨50, 11111⟩], lastCheckpoint := 11111,
    checkpointsEnabled := true }

/-- Concrete sync state: checkpoint mode on, tip checkpoint (5, 1), chain
anchored at the local tip (9, 0), loader peer with a clean record. -/
def exHState : Hdr.HState :=
  { pool := { checkpoints := true, headerTip := some ⟨5, 1⟩, chain := [⟨9, 0⟩] },
    peer := { loader := true, ghTime := 0, banScore := 0, closed := false,
              banned := false, blockTime := 0 } }

/-- Concrete headers batch whose single header chains onto (9, 0) and
hashes to 7 ≠ 5 at the checkpoint height 1. -/
def exBadBatch : List Hdr.Header := [⟨9, 7⟩]

/-- Concrete loader pool: two outbound peers, the first still connecting,
the second fully connected, neither the loader. -/
def exLPool : Loader.LPool :=
  { peers := [⟨true, .connecting, false⟩, ⟨true, .connected, false⟩],
    hdr := { checkpoints := false, headerTip := none, chain := [] } }

/-!
# Theorems

Helper lemmas first, then one theorem per claim (with witnesses and
counterexamples where the claim's status requires them).
-/

/-- C9: on a `feefilter` message, a rate that is negative or above the
maximum money supply draws 100 ban score — which closes the peer and bans
its address — and leaves `fee_rate` unchanged; otherwise `fee_rate` is set
to exactly the message's rate and nothing else changes. -/
theorem c9_feefilter_handler (p : Fee.Peer) (rate : Int) :
    Fee.onFeefilter p rate =
      if rate < 0 ∨ Fee.maxMoney < rate then
        { p with banScore := p.banScore + 100, banned := true, closed := true }
      else { p with feeRate := rate } := by
  unfold Fee.onFeefilter Fee.increaseBan
  split
  · rw [if_pos (by omega)]
  · rfl

/-- C10: while the chain is not synced, `getblocks`, `getheaders` and
`mempool` requests are complete no-ops — no reply, no close, no state
change — and the BIP37-disabled close inside the mempool handler therefore
only fires once the chain is synced. -/
theorem c10_unsynced_requests_ignored (chain : List Serve.Entry)
    (locIdx : Option Nat) (stopHash : Nat) (locLen : Nat) (mp : List Nat)
    (b : Bool) (p : Serve.SPeer) :
    Serve.onGetblocks false chain locIdx stopHash p = (p, none)
      ∧ Serve.onGetheaders false chain locLen locIdx stopHash p = (p, none)
      ∧ Serve.onMempool false b mp p = (p, [])
      ∧ Serve.onMempool true false mp p = ({ p with closed := true }, []) :=
  ⟨rfl, rfl, rfl, rfl⟩

/-- C6 counterexample: a connected pre-pong peer (version 60000 ≤
`PONG_VERSION`) that last sent 21 minutes ago is closed as stalling
(`some .send`) even though the claimed 4x threshold (80 minutes) has not
been reached — the code multiplies only the recv timeout by 4, never the
send timeout. -/
theorem c6_counterexample :
    Timeout.maybeTimeout true exTPeer 1260002 = some Timeout.StallReason.send
      ∧ exTPeer.version ≤ Timeout.pongVersion
      ∧ ¬ (exTPeer.lastSend + 20 * 60000 * 4 < 1260002) := by
  decide

/-- C6 (amended): for a connected peer past the 60-second grace period with
quiet request state, the send-stall close fires exactly when no message has
been sent for a flat 20 minutes, independent of the protocol version; the
4x pre-pong multiplier applies only to the recv-stall threshold. -/
theorem c6_amended_send_stall (p : Timeout.TPeer) (now : Int)
    (hgh : p.ghTime = -1) (hb : p.blockTimes = []) (ht : p.txTimes = [])
    (hc : p.compactTimes = []) (helapsed : p.time + 60000 < now)
    (hr : p.lastRecv ≠ 0) (hs : p.lastSend ≠ 0) :
    (Timeout.maybeTimeout true p now = some Timeout.StallReason.send ↔
        p.lastSend + 20 * 60000 < now)
      ∧ (¬ p.lastSend + 20 * 60000 < now →
          (Timeout.maybeTimeout true p now = some Timeout.StallReason.recv ↔
            p.lastRecv + 20 * 60000 *
              (if p.version ≤ Timeout.pongVersion then 4 else (1 : Int)) < now)) := by
  unfold Timeout.maybeTimeout
  simp only [hgh, hb, ht, hc, hr, hs, helapsed, List.any_nil, Bool.not_true, ne_eq,
    not_true_eq_false, not_false_eq_true, false_and, and_false, true_and, and_true,
    true_or, or_self, if_true, if_false, ite_true, ite_false, or_false, false_or]
  constructor
  · split_ifs with h1 h2 h3 h4 <;> simp_all
  · intro hsend
    split_ifs with h1 h2 h3 h4 <;> simp_all

/-- C6 witness: the amended theorem applied to the concrete stalling peer
at `now = 1260002`. -/
theorem c6_amended_send_stall_witness :
    Timeout.maybeTimeout true exTPeer 1260002 = some Timeout.StallReason.send ↔
      exTPeer.lastSend + 20 * 60000 < 1260002 :=
  (c6_amended_send_stall exTPeer 1260002 (by decide) (by decide) (by decide)
    (by decide) (by decide) (by decide) (by decide)).1

/-- Reading 32 bits little-endian from an encoded 32-bit value recovers it
modulo 2^32. -/
theorem read32le_le32_append (x : Nat) (r : List Nat) :
    Framer.read32le (Framer.le32 x ++ r) = x % 4294967296 := by
  simp [Framer.read32le, Framer.le32]
  omega

/-- The 32-bit read only inspects the first four bytes. -/
theorem read32le_take4 (l : List Nat) :
    Framer.read32le (l.take 4) = Framer.read32le l := by
  rcases l with _ | ⟨a, _ | ⟨b, _ | ⟨c, _ | ⟨d, t⟩⟩⟩⟩ <;> simp [Framer.read32le]

/-- The first NUL in a NUL-free command followed by NUL padding sits right
after the command. -/
theorem findIdx_zero_append (cmd : List Nat) (r : List Nat)
    (hc : ∀ b ∈ cmd, b ≠ 0) (i : Nat) :
    (cmd ++ 0 :: r).findIdx? (· == 0) i = some (i + cmd.length) := by
  induction cmd generalizing i with
  | nil => simp [List.findIdx?_cons]
  | cons a t ih =>
    have ha : ¬ (a == 0) = true := by simpa using hc a (by simp)
    simp only [List.cons_append, List.findIdx?_cons, ha, if_false, ite_false]
    rw [ih (fun b hb => hc b (by simp [hb])) (i + 1)]
    simp
    omega

/-- On the 24 header bytes of a well-formed frame, `btc_parser_parse_header`
succeeds and latches the command, payload length, and checksum. -/
theorem parseHeader_frame (c : Framer.Codec) (magic : Nat) (m : Framer.PMsg)
    (h1 : magic < 4294967296) (h2 : m.cmd.length ≤ 11)
    (h3 : ∀ b ∈ m.cmd, 32 ≤ b ∧ b ≤ 126) (h4 : m.body.length ≤ Framer.maxMessage)
    (h5 : 4 ≤ (c.hash256 m.body).length) (p : Framer.Parser) (hm : p.magic = magic) :
    Framer.parseHeader p ((Framer.encodeFrame c magic m).take 24) =
      ({ p with cmd := m.cmd, waiting := m.body.length,
                checksum := Framer.read32le (c.hash256 m.body), hasHeader := true }, true) := by
  have hA : (Framer.le32 magic).length = 4 := rfl
  have hC : (List.replicate (12 - m.cmd.length) 0).length = 12 - m.cmd.length := by simp
  have hE : ((c.hash256 m.body).take 4).length = 4 := by simp; omega
  have htake : (Framer.encodeFrame c magic m).take 24
      = Framer.le32 magic ++ m.cmd ++ List.replicate (12 - m.cmd.length) 0
          ++ Framer.le32 m.body.length ++ (c.hash256 m.body).take 4 := by
    unfold Framer.encodeFrame
    exact List.take_left' (by simp [Framer.le32]; omega)
  rw [htake]
  have hassoc : Framer.le32 magic ++ m.cmd ++ List.replicate (12 - m.cmd.length) 0
      ++ Framer.le32 m.body.length ++ (c.hash256 m.body).take 4
      = Framer.le32 magic ++ (m.cmd ++ (List.replicate (12 - m.cmd.length) 0
          ++ (Framer.le32 m.body.length ++ (c.hash256 m.body).take 4))) := by
    simp [List.append_assoc]
  have e1 : Framer.read32le (Framer.le32 magic ++ m.cmd ++ List.replicate (12 - m.cmd.length) 0
      ++ Framer.le32 m.body.length ++ (c.hash256 m.body).take 4) = magic := by
    rw [hassoc, read32le_le32_append]
    exact Nat.mod_eq_of_lt h1
  have edrop4 : (Framer.le32 magic ++ m.cmd ++ List.replicate (12 - m.cmd.length) 0
      ++ Framer.le32 m.body.length ++ (c.hash256 m.body).take 4).drop 4
      = m.cmd ++ (List.replicate (12 - m.cmd.length) 0
          ++ (Framer.le32 m.body.length ++ (c.hash256 m.body).take 4)) := by
    rw [hassoc]
    exact List.drop_left' hA
  have etake12 : (m.cmd ++ (List.replicate (12 - m.cmd.length) 0
      ++ (Framer.le32 m.body.length ++ (c.hash256 m.body).take 4))).take 12
      = m.cmd ++ List.replicate (12 - m.cmd.length) 0 := by
    rw [List.take_append_eq_append_take, List.take_of_length_le (by omega),
        List.take_left' (by simp)]
  have erep : List.replicate (12 - m.cmd.length) 0 = 0 :: List.replicate (11 - m.cmd.length) (0:Nat) := by
    rw [show 12 - m.cmd.length = (11 - m.cmd.length) + 1 by omega, List.replicate_succ]
  have efind : ((m.cmd ++ (List.replicate (12 - m.cmd.length) 0
      ++ (Framer.le32 m.body.length ++ (c.hash256 m.body).take 4))).take 12).findIdx? (· == 0)
      = some m.cmd.length := by
    rw [etake12, erep, findIdx_zero_append m.cmd _ (fun b hb => by have := (h3 b hb).1; omega) 0,
        Nat.zero_add]
  have ecmd : (m.cmd ++ (List.replicate (12 - m.cmd.length) 0
      ++ (Framer.le32 m.body.length ++ (c.hash256 m.body).take 4))).take m.cmd.length = m.cmd :=
    List.take_left' rfl
  have eall : m.cmd.all (fun ch => 32 ≤ ch && ch ≤ 126) = true := by
    simp only [List.all_eq_true, Bool.and_eq_true, decide_eq_true_eq]
    exact fun b hb => ⟨(h3 b hb).1, (h3 b hb).2⟩
  have edrop16 : (m.cmd ++ (List.replicate (12 - m.cmd.length) 0
      ++ (Framer.le32 m.body.length ++ (c.hash256 m.body).take 4))).drop 12
      = Framer.le32 m.body.length ++ (c.hash256 m.body).take 4 := by
    rw [show (m.cmd ++ (List.replicate (12 - m.cmd.length) 0
        ++ (Framer.le32 m.body.length ++ (c.hash256 m.body).take 4)))
        = (m.cmd ++ List.replicate (12 - m.cmd.length) 0)
          ++ (Framer.le32 m.body.length ++ (c.hash256 m.body).take 4) from by
          simp [List.append_assoc]]
    exact List.drop_left' (by simp; omega)
  have esize : Framer.read32le ((Framer.le32 magic ++ m.cmd
      ++ List.replicate (12 - m.cmd.length) 0 ++ Framer.le32 m.body.length
      ++ (c.hash256 m.body).take 4).drop 16) = m.body.length := by
    have : (Framer.le32 magic ++ m.cmd ++ List.replicate (12 - m.cmd.length) 0
        ++ Framer.le32 m.body.length ++ (c.hash256 m.body).take 4)
        = (Framer.le32 magic ++ (m.cmd ++ List.replicate (12 - m.cmd.length) 0))
          ++ (Framer.le32 m.body.length ++ (c.hash256 m.body).take 4) := by
      simp [List.append_assoc]
    rw [this, List.drop_left' (by simp [Framer.le32]; omega), read32le_le32_append]
    have : m.body.length < 4294967296 := by
      have := h4; unfold Framer.maxMessage at this; omega
    omega
  have echk : Framer.read32le ((Framer.le32 magic ++ m.cmd
      ++ List.replicate (12 - m.cmd.length) 0 ++ Framer.le32 m.body.length
      ++ (c.hash256 m.body).take 4).drop 20) = Framer.read32le (c.hash256 m.body) := by
    have : (Framer.le32 magic ++ m.cmd ++ List.replicate (12 - m.cmd.length) 0
        ++ Framer.le32 m.body.length ++ (c.hash256 m.body).take 4)
        = (Framer.le32 magic ++ (m.cmd ++ (List.replicate (12 - m.cmd.length) 0
            ++ Framer.le32 m.body.length))) ++ (c.hash256 m.body).take 4 := by
      simp [List.append_assoc]
    rw [this, List.drop_left' (by simp [Framer.le32]; omega), read32le_take4]
  have efind2 : (((Framer.le32 magic ++ m.cmd ++ List.replicate (12 - m.cmd.length) 0
      ++ Framer.le32 m.body.length ++ (c.hash256 m.body).take 4).drop 4).take 12).findIdx? (· == 0)
      = some m.cmd.length := by
    rw [edrop4]
    exact efind
  have ecmd2 : ((Framer.le32 magic ++ m.cmd ++ List.replicate (12 - m.cmd.length) 0
      ++ Framer.le32 m.body.length ++ (c.hash256 m.body).take 4).drop 4).take m.cmd.length
      = m.cmd := by
    rw [edrop4]
    exact ecmd
  unfold Framer.parseHeader
  rw [hm, e1, if_pos rfl, efind2]
  dsimp only
  rw [ecmd2, eall]
  rw [if_pos rfl]
  rw [esize, echk, if_pos h4]

/-- The feed loop is done when the parser is closed or starved. -/
theorem feedLoop_stop (c : Framer.Codec) (fuel : Nat) (st : Framer.FeedState)
    (h : ¬(st.parser.closed = false ∧ st.parser.waiting ≤ st.parser.pending.length)) :
    Framer.feedLoop c fuel st = st := by
  cases fuel with
  | zero => rfl
  | succ f => simp only [Framer.feedLoop, h, if_false, ite_false]

/-- One iteration of the feed loop while bytes are available. -/
theorem feedLoop_go (c : Framer.Codec) (fuel : Nat) (st : Framer.FeedState)
    (h : st.parser.closed = false ∧ st.parser.waiting ≤ st.parser.pending.length) :
    Framer.feedLoop c (fuel + 1) st = Framer.feedLoop c fuel (Framer.feedStep c st) := by
  simp only [Framer.feedLoop, h, if_true, ite_true, and_self]

/-- A frame is 24 header bytes plus the payload. -/
theorem encodeFrame_length (c : Framer.Codec) (magic : Nat) (m : Framer.PMsg)
    (h2 : m.cmd.length ≤ 11) (h5 : 4 ≤ (c.hash256 m.body).length) :
    (Framer.encodeFrame c magic m).length = 24 + m.body.length := by
  simp [Framer.encodeFrame, Framer.le32]
  omega

/-- Past the 24 header bytes of a frame lies exactly the payload. -/
theorem encodeFrame_drop24 (c : Framer.Codec) (magic : Nat) (m : Framer.PMsg)
    (h2 : m.cmd.length ≤ 11) (h5 : 4 ≤ (c.hash256 m.body).length) :
    (Framer.encodeFrame c magic m).drop 24 = m.body := by
  unfold Framer.encodeFrame
  exact List.drop_left' (by simp [Framer.le32]; omega)

/-- Running the feed loop on a pending buffer holding exactly one
well-formed frame emits that one message and leaves the parser waiting for
the next 24-byte header. -/
theorem feedLoop_frame (c : Framer.Codec) (magic : Nat) (m : Framer.PMsg)
    (h1 : magic < 4294967296) (h2 : m.cmd.length ≤ 11)
    (h3 : ∀ b ∈ m.cmd, 32 ≤ b ∧ b ≤ 126) (h4 : m.body.length ≤ Framer.maxMessage)
    (h5 : 4 ≤ (c.hash256 m.body).length) (h6 : c.decodeOk m.cmd m.body = true)
    (fuel : Nat) (hfuel : 2 ≤ fuel) (ban : Nat) (bn : Bool)
    (em : List (List Nat × List Nat)) :
    Framer.feedLoop c fuel
      { parser := { magic := magic, pending := Framer.encodeFrame c magic m, waiting := 24,
                    closed := false, cmd := [], hasHeader := false, checksum := 0 },
        banScore := ban, dead := false, banned := bn, emitted := em } =
      { parser := { magic := magic, pending := [], waiting := 24, closed := false,
                    cmd := m.cmd, hasHeader := false,
                    checksum := Framer.read32le (c.hash256 m.body) },
        banScore := ban, dead := false, banned := bn, emitted := em ++ [(m.cmd, m.body)] } := by
  obtain ⟨f, rfl⟩ : ∃ f, fuel = f + 2 := ⟨fuel - 2, by omega⟩
  rw [show f + 2 = (f + 1) + 1 from rfl]
  rw [feedLoop_go _ _ _ ⟨rfl, by
    show (24 : Nat) ≤ (Framer.encodeFrame c magic m).length
    rw [encodeFrame_length c magic m h2 h5]; omega⟩]
  have hstep1 : Framer.feedStep c
      { parser := { magic := magic, pending := Framer.encodeFrame c magic m, waiting := 24,
                    closed := false, cmd := [], hasHeader := false, checksum := 0 },
        banScore := ban, dead := false, banned := bn, emitted := em } =
      { parser := { magic := magic, pending := m.body, waiting := m.body.length,
                    closed := false, cmd := m.cmd, hasHeader := true,
                    checksum := Framer.read32le (c.hash256 m.body) },
        banScore := ban, dead := false, banned := bn, emitted := em } := by
    unfold Framer.feedStep
    dsimp only
    rw [parseHeader_frame c magic m h1 h2 h3 h4 h5 _ rfl]
    dsimp only
    rw [encodeFrame_drop24 c magic m h2 h5, if_neg Bool.false_ne_true]
  rw [hstep1]
  rw [feedLoop_go _ _ _ ⟨rfl, by show m.body.length ≤ m.body.length; omega⟩]
  have hstep2 : Framer.feedStep c
      { parser := { magic := magic, pending := m.body, waiting := m.body.length,
                    closed := false, cmd := m.cmd, hasHeader := true,
                    checksum := Framer.read32le (c.hash256 m.body) },
        banScore := ban, dead := false, banned := bn, emitted := em } =
      { parser := { magic := magic, pending := [], waiting := 24, closed := false,
                    cmd := m.cmd, hasHeader := false,
                    checksum := Framer.read32le (c.hash256 m.body) },
        banScore := ban, dead := false, banned := bn, emitted := em ++ [(m.cmd, m.body)] } := by
    unfold Framer.feedStep
    dsimp only
    rw [List.take_length, List.drop_length, h6, if_pos rfl, if_pos rfl, if_pos rfl]
  rw [hstep2]
  exact feedLoop_stop c f _ (by
    intro hcon
    have := hcon.2
    simp at this)

/-- C4: feeding the framed encoding of a well-formed message (4-byte LE
magic, 12-byte NUL-padded command of bytes 32..126, 4-byte LE length at
most 32 MiB, 4-byte double-SHA256 checksum, payload) to a fresh parser with
the same magic emits exactly that one message — command and payload intact,
the body codec accepting its own encoding — leaves the parser open, waiting
for the next 24-byte header with an empty buffer, and adds no ban score. -/
theorem c4_frame_roundtrip (c : Framer.Codec) (magic : Nat) (m : Framer.PMsg)
    (h1 : magic < 4294967296) (h2 : m.cmd.length ≤ 11)
    (h3 : ∀ b ∈ m.cmd, 32 ≤ b ∧ b ≤ 126) (h4 : m.body.length ≤ Framer.maxMessage)
    (h5 : 4 ≤ (c.hash256 m.body).length) (h6 : c.decodeOk m.cmd m.body = true) :
    Framer.feed c (Framer.initFeed magic) (Framer.encodeFrame c magic m) =
      { parser := { magic := magic, pending := [], waiting := 24, closed := false,
                    cmd := m.cmd, hasHeader := false,
                    checksum := Framer.read32le (c.hash256 m.body) },
        banScore := 0, dead := false, banned := false, emitted := [(m.cmd, m.body)] } := by
  unfold Framer.feed Framer.initFeed Framer.parserInit
  dsimp only
  rw [if_neg Bool.false_ne_true, List.nil_append]
  rw [feedLoop_frame c magic m h1 h2 h3 h4 h5 h6 _ (by omega) 0 false []]
  rw [List.nil_append]

/-- C3 (amended): a framing failure fires the error callback, which adds
exactly 10 ban score; the parser is not closed by the error and parsing
resumes at the next frame boundary, so a well-formed frame following the
malformed one is still decoded and emitted; the parser is closed only when
the accumulated ban score reaches 100, which closes and bans the peer and
ends parsing with no message emitted. -/
theorem c3_amended_parse_error (c : Framer.Codec) (magic : Nat) (m : Framer.PMsg) (b : Nat)
    (h0 : magic ≠ 0) (h1 : magic < 4294967296) (h2 : m.cmd.length ≤ 11)
    (h3 : ∀ x ∈ m.cmd, 32 ≤ x ∧ x ≤ 126) (h4 : m.body.length ≤ Framer.maxMessage)
    (h5 : 4 ≤ (c.hash256 m.body).length) (h6 : c.decodeOk m.cmd m.body = true) :
    (b + 10 < 100 →
        Framer.feed c { Framer.initFeed magic with banScore := b }
            (List.replicate 24 0 ++ Framer.encodeFrame c magic m) =
          { parser := { magic := magic, pending := [], waiting := 24, closed := false,
                        cmd := m.cmd, hasHeader := false,
                        checksum := Framer.read32le (c.hash256 m.body) },
            banScore := b + 10, dead := false, banned := false,
            emitted := [(m.cmd, m.body)] })
      ∧ (100 ≤ b + 10 →
          Framer.feed c { Framer.initFeed magic with banScore := b }
              (List.replicate 24 0 ++ Framer.encodeFrame c magic m) =
            { parser := { magic := magic, pending := Framer.encodeFrame c magic m,
                          waiting := 24, closed := true, cmd := [], hasHeader := false,
                          checksum := 0 },
              banScore := b + 10, dead := true, banned := true, emitted := [] }) := by
  have hlen : (List.replicate 24 (0:Nat) ++ Framer.encodeFrame c magic m).length
      = 48 + m.body.length := by
    simp [encodeFrame_length c magic m h2 h5]
    omega
  have htake : (List.replicate 24 (0:Nat) ++ Framer.encodeFrame c magic m).take 24
      = List.replicate 24 0 :=
    List.take_left' (by simp)
  have hdrop : (List.replicate 24 (0:Nat) ++ Framer.encodeFrame c magic m).drop 24
      = Framer.encodeFrame c magic m :=
    List.drop_left' (by simp)
  have hcond : ¬ (Framer.read32le (List.replicate 24 (0:Nat)) = magic) := by
    intro hh
    apply h0
    rw [← hh]
    rfl
  have hph : ∀ p : Framer.Parser, p.magic = magic →
      Framer.parseHeader p ((List.replicate 24 (0:Nat) ++ Framer.encodeFrame c magic m).take 24)
        = (p, false) := by
    intro p hpm
    rw [htake]
    unfold Framer.parseHeader
    rw [hpm, if_neg hcond]
  constructor
  · intro hb
    unfold Framer.feed Framer.initFeed Framer.parserInit
    dsimp only
    rw [if_neg Bool.false_ne_true, List.nil_append]
    rw [show 2 * (List.replicate 24 (0:Nat) ++ Framer.encodeFrame c magic m).length + 2
        = (2 * (List.replicate 24 (0:Nat) ++ Framer.encodeFrame c magic m).length + 1) + 1
        from rfl]
    rw [feedLoop_go _ _ _ ⟨rfl, by
      show (24 : Nat) ≤ (List.replicate 24 (0:Nat) ++ Framer.encodeFrame c magic m).length
      rw [hlen]; omega⟩]
    have hstep : Framer.feedStep c
        { parser := { magic := magic,
                      pending := List.replicate 24 0 ++ Framer.encodeFrame c magic m,
                      waiting := 24, closed := false, cmd := [], hasHeader := false,
                      checksum := 0 },
          banScore := b, dead := false, banned := false, emitted := [] } =
        { parser := { magic := magic, pending := Framer.encodeFrame c magic m, waiting := 24,
                      closed := false, cmd := [], hasHeader := false, checksum := 0 },
          banScore := b + 10, dead := false, banned := false, emitted := [] } := by
      unfold Framer.feedStep
      dsimp only
      rw [if_neg Bool.false_ne_true, hph _ rfl]
      dsimp only
      rw [hdrop]
      unfold Framer.onParseError
      dsimp only
      rw [if_neg Bool.false_ne_true, if_neg (by omega : ¬ (100 ≤ b + 10))]
    rw [hstep]
    rw [feedLoop_frame c magic m h1 h2 h3 h4 h5 h6 _ (by rw [hlen]; omega) (b + 10) false []]
    rw [List.nil_append]
  · intro hb
    unfold Framer.feed Framer.initFeed Framer.parserInit
    dsimp only
    rw [if_neg Bool.false_ne_true, List.nil_append]
    rw [show 2 * (List.replicate 24 (0:Nat) ++ Framer.encodeFrame c magic m).length + 2
        = (2 * (List.replicate 24 (0:Nat) ++ Framer.encodeFrame c magic m).length + 1) + 1
        from rfl]
    rw [feedLoop_go _ _ _ ⟨rfl, by
      show (24 : Nat) ≤ (List.replicate 24 (0:Nat) ++ Framer.encodeFrame c magic m).length
      rw [hlen]; omega⟩]
    have hstep : Framer.feedStep c
        { parser := { magic := magic,
                      pending := List.replicate 24 0 ++ Framer.encodeFrame c magic m,
                      waiting := 24, closed := false, cmd := [], hasHeader := false,
                      checksum := 0 },
          banScore := b, dead := false, banned := false, emitted := [] } =
        { parser := { magic := magic, pending := Framer.encodeFrame c magic m, waiting := 24,
                      closed := true, cmd := [], hasHeader := false, checksum := 0 },
          banScore := b + 10, dead := true, banned := true, emitted := [] } := by
      unfold Framer.feedStep
      dsimp only
      rw [if_neg Bool.false_ne_true, hph _ rfl]
      dsimp only
      rw [hdrop]
      unfold Framer.onParseError
      dsimp only
      rw [if_neg Bool.false_ne_true, if_pos hb]
    rw [hstep]
    exact feedLoop_stop c _ _ (by
      intro hcon
      have := hcon.1
      simp at this)

/-- C4 witness: the round-trip theorem applied to the concrete "ping"
message under the concrete codec. -/
theorem c4_frame_roundtrip_witness :
    Framer.feed exCodec (Framer.initFeed 1) (Framer.encodeFrame exCodec 1 exMsg) =
      { parser := { magic := 1, pending := [], waiting := 24, closed := false,
                    cmd := exMsg.cmd, hasHeader := false,
                    checksum := Framer.read32le (exCodec.hash256 exMsg.body) },
        banScore := 0, dead := false, banned := false,
        emitted := [(exMsg.cmd, exMsg.body)] } :=
  c4_frame_roundtrip exCodec 1 exMsg (by decide) (by decide) (by decide) (by decide)
    (by decide) (by decide)

/-- C3 counterexample: a 24-byte bad-magic header followed by a well-formed
frame produces exactly one error callback (ban score 10), yet the parser is
not closed and the following message is still emitted — refuting "the
parser is closed after the first error: no further messages are emitted
from the same byte stream". -/
theorem c3_counterexample :
    (Framer.feed exCodec (Framer.initFeed 1)
        (List.replicate 24 0 ++ Framer.encodeFrame exCodec 1 exMsg)).banScore = 10
      ∧ (Framer.feed exCodec (Framer.initFeed 1)
          (List.replicate 24 0 ++ Framer.encodeFrame exCodec 1 exMsg)).parser.closed = false
      ∧ (Framer.feed exCodec (Framer.initFeed 1)
          (List.replicate 24 0 ++ Framer.encodeFrame exCodec 1 exMsg)).emitted
        = [(exMsg.cmd, exMsg.body)] := by
  decide

/-- C3 witness: the amended theorem applied to the concrete bad-then-good
stream with initial ban score 0. -/
theorem c3_amended_parse_error_witness :
    Framer.feed exCodec { Framer.initFeed 1 with banScore := 0 }
        (List.replicate 24 0 ++ Framer.encodeFrame exCodec 1 exMsg) =
      { parser := { magic := 1, pending := [], waiting := 24, closed := false,
                    cmd := exMsg.cmd, hasHeader := false,
                    checksum := Framer.read32le (exCodec.hash256 exMsg.body) },
        banScore := 0 + 10, dead := false, banned := false,
        emitted := [(exMsg.cmd, exMsg.body)] } :=
  (c3_amended_parse_error exCodec 1 exMsg 0 (by decide) (by decide) (by decide) (by decide)
    (by decide) (by decide) (by decide)).1 (by decide)

/-- Setting the element just appended to a list replaces it. -/
theorem set_append_singleton (l : List α) (x y : α) :
    (l ++ [x]).set l.length y = l ++ [y] := by
  induction l with
  | nil => rfl
  | cons a t ih => simp [List.set, ih]

/-- C7 counterexample: with two outbound peers — the first still
`CONNECTING`, the second `CONNECTED` — `btc_pool_add_loader` repurposes the
first one, not the first `CONNECTED` one as the claim states. -/
theorem c7_counterexample :
    ((Loader.addLoader exLPool none).1.peers.getD 0 default).loader = true
      ∧ ((Loader.addLoader exLPool none).1.peers.getD 0 default).state ≠ PeerState.connected
      ∧ (exLPool.peers.getD 1 default).outbound = true
      ∧ (exLPool.peers.getD 1 default).state = PeerState.connected
      ∧ ((Loader.addLoader exLPool none).1.peers.getD 1 default).loader = false := by
  decide

/-- C7 (amended): when the pool has no loader, `btc_pool_add_loader`
repurposes the first outbound peer in the iteration list regardless of its
connection state; when there is no outbound peer it dials a new outbound
peer (when an address is available) and designates it; and the headers
chain is reset exactly when the disconnecting peer was the loader while
checkpoint sync is active — not on every loader change. -/
theorem c7_amended_loader_selection (cfg : Hdr.HCfg) (s : Loader.LPool)
    (dial : Option Loader.LPeer) (q : Loader.LPeer) (i : Nat) (tip : Hdr.HdrNode) :
    (s.peers.findIdx? (·.outbound) = some i →
        Loader.addLoader s dial =
          ({ s with peers := s.peers.set i { s.peers.getD i default with loader := true } },
            true))
      ∧ (s.peers.findIdx? (·.outbound) = none →
          Loader.addLoader s (some q) =
            ({ s with peers := s.peers ++ [{ q with loader := true }] }, true))
      ∧ (s.peers.findIdx? (·.outbound) = none → Loader.addLoader s none = (s, false))
      ∧ ((s.peers.getD i default).loader = true → s.hdr.checkpoints = true →
          Loader.onDisconnect cfg s i tip =
            { peers := s.peers.eraseIdx i, hdr := Hdr.resetChain cfg s.hdr tip })
      ∧ (s.hdr.checkpoints = false → (Loader.onDisconnect cfg s i tip).hdr = s.hdr) := by
  refine ⟨fun hfind => ?_, fun hfind => ?_, fun hfind => ?_, fun hld hcp => ?_, fun hcp => ?_⟩
  · simp [Loader.addLoader, Loader.setLoader, hfind]
  · simp only [Loader.addLoader, Loader.setLoader, hfind]
    rw [List.getD_eq_getElem?_getD]
    simp [set_append_singleton]
  · simp [Loader.addLoader, hfind]
  · simp only [List.getD_eq_getElem?_getD] at hld
    simp [Loader.onDisconnect, hld, hcp]
  · unfold Loader.onDisconnect
    simp only [hcp, Bool.false_eq_true, and_false, if_false]

/-- C7 witness: the amended theorem applied to the concrete pool whose
first outbound peer is still connecting. -/
theorem c7_amended_loader_selection_witness :
    Loader.addLoader exLPool none =
      ({ exLPool with
          peers := exLPool.peers.set 0 { exLPool.peers.getD 0 default with loader := true } },
        true) :=
  (c7_amended_loader_selection exHCfg exLPool none default 0 ⟨0, 0⟩).1 (by decide)

/-- C2 counterexample: in checkpoint mode, a header batch from the loader
that chains correctly but carries the wrong hash at the checkpoint height
makes `btc_pool_on_headers` close the loader with `btc_peer_close` only:
the ban score stays 0 and the address is not banned, contrary to the
claimed 100 ban score and address ban. -/
theorem c2_counterexample :
    (Hdr.onHeaders exHCfg exHState exBadBatch 0).peer.closed = true
      ∧ (Hdr.onHeaders exHCfg exHState exBadBatch 0).peer.banScore = 0
      ∧ (Hdr.onHeaders exHCfg exHState exBadBatch 0).peer.banned = false := by
  decide

/-- C2 (amended): in checkpoint mode, when the loader's header batch runs
into a header whose height equals `header_tip.height` but whose hash
differs from `header_tip.hash`, the loader peer is closed, with no
ban-score added and no address ban. -/
theorem c2_wrong_checkpoint_closes (cfg : Hdr.HCfg) (st : Hdr.HState)
    (msg : List Hdr.Header) (now : Int) (tip : Hdr.Checkpoint)
    (hcp : st.pool.checkpoints = true) (hld : st.peer.loader = true)
    (htip : st.pool.headerTip = some tip)
    (hne : msg ≠ []) (hlen : msg.length ≤ 2000) (hch : st.pool.chain ≠ [])
    (hout : (Hdr.onHeadersGo cfg tip msg st.pool.chain false).2.2 = Hdr.HdrOutcome.badCheckpoint) :
    (Hdr.onHeaders cfg st msg now).peer.closed = true
      ∧ (Hdr.onHeaders cfg st msg now).peer.banScore = st.peer.banScore
      ∧ (Hdr.onHeaders cfg st msg now).peer.banned = st.peer.banned := by
  have hlen2 : ¬ (2000 < msg.length) := by omega
  unfold Hdr.onHeaders
  simp only [hcp, hld, htip, hne, hch, hlen2, not_true_eq_false, ite_false, if_false,
    Bool.not_true]
  rcases hEq : Hdr.onHeadersGo cfg tip msg st.pool.chain false with ⟨chain, cp, out⟩
  rw [hEq] at hout
  simp only at hout
  subst hout
  simp [Hdr.closePeer]

/-- C2 witness: the amended theorem applied to the concrete batch whose
header hashes to 7 instead of the checkpoint hash 5 at height 1. -/
theorem c2_wrong_checkpoint_closes_witness :
    (Hdr.onHeaders exHCfg exHState exBadBatch 0).peer.closed = true
      ∧ (Hdr.onHeaders exHCfg exHState exBadBatch 0).peer.banScore = exHState.peer.banScore
      ∧ (Hdr.onHeaders exHCfg exHState exBadBatch 0).peer.banned = exHState.peer.banned :=
  c2_wrong_checkpoint_closes exHCfg exHState exBadBatch 0 ⟨5, 1⟩ (by decide) (by decide)
    (by decide) (by decide) (by decide) (by decide) (by decide)

/-- A nonempty list's optional last element is its last element. -/
theorem getLast?_eq_getLastD {α : Type} (l : List α) (d : α) (hne : l ≠ []) :
    l.getLast? = some (l.getLastD d) := by
  cases l with
  | nil => exact absurd rfl hne
  | cons a t =>
    rw [List.getLastD_eq_getLast?]
    cases h : (a :: t).getLast? with
    | none => simp at h
    | some x => rfl

/-- Dropping the head of a linked chain keeps it linked. -/
theorem linked_tail (hh : Hdr.Header → Nat) (a : Hdr.HdrNode) (t : List Hdr.HdrNode)
    (h : Hdr.Linked hh (a :: t)) : Hdr.Linked hh t := by
  cases t with
  | nil => trivial
  | cons b t2 => exact h.2

/-- Appending a node whose height is one above the chain's last node, and
whose hash is the header hash of a header chaining onto the last node's
hash, keeps the chain linked. -/
theorem linked_snoc (hh : Hdr.Header → Nat) (ch : List Hdr.HdrNode)
    (node last : Hdr.HdrNode) (hdr : Hdr.Header) (hl : Hdr.Linked hh ch)
    (hlast : ch.getLast? = some last)
    (hheight : node.height = last.height + 1)
    (hprev : hdr.prevBlock = last.hash) (hhash : hh hdr = node.hash) :
    Hdr.Linked hh (ch ++ [node]) := by
  induction ch with
  | nil => simp at hlast
  | cons a t ih =>
    cases t with
    | nil =>
      simp only [List.getLast?_singleton, Option.some.injEq] at hlast
      subst hlast
      exact ⟨⟨hheight, hdr, hprev, hhash⟩, trivial⟩
    | cons b t2 =>
      rw [List.getLast?_cons_cons] at hlast
      exact ⟨hl.1, ih hl.2 hlast⟩

/-- The header-batch loop preserves chain contiguity: every appended node
is built from a verified header chaining onto the previous tail. -/
theorem onHeadersGo_linked (cfg : Hdr.HCfg) (tip : Hdr.Checkpoint)
    (msg : List Hdr.Header) (chain : List Hdr.HdrNode) (cp : Bool)
    (hl : Hdr.Linked cfg.hashH chain) (hne : chain ≠ []) :
    Hdr.Linked cfg.hashH (Hdr.onHeadersGo cfg tip msg chain cp).1 := by
  induction msg generalizing chain cp with
  | nil => simpa [Hdr.onHeadersGo] using hl
  | cons hdr rest ih =>
    unfold Hdr.onHeadersGo
    dsimp only
    split_ifs with h1 h2 h3
    · exact hl
    · exact hl
    · refine ih (chain ++ [⟨cfg.hashH hdr, (chain.getLastD ⟨0, 0⟩).height + 1⟩]) _ ?_ (by simp)
      exact linked_snoc cfg.hashH chain _ (chain.getLastD ⟨0, 0⟩) hdr hl
        (getLast?_eq_getLastD chain ⟨0, 0⟩ hne) rfl (by simpa using h2) rfl
    · exact hl

/-- Shifting the head always leaves the tail of the chain. -/
theorem shiftHeader_chain (pool : Hdr.HPool) :
    (Hdr.shiftHeader pool).chain = pool.chain.tail := by
  unfold Hdr.shiftHeader
  split <;> simp_all

/-- Case analysis on what `btc_pool_on_headers` does to the chain: it is
untouched, replaced by the loop's (partial) extension, or — on the
checkpoint path — replaced by the tail of that extension. -/
theorem onHeaders_chain_cases (cfg : Hdr.HCfg) (st : Hdr.HState)
    (msg : List Hdr.Header) (now : Int) :
    (Hdr.onHeaders cfg st msg now).pool.chain = st.pool.chain
      ∨ ∃ tip, st.pool.headerTip = some tip ∧ st.pool.chain ≠ [] ∧
          ((Hdr.onHeaders cfg st msg now).pool.chain
              = (Hdr.onHeadersGo cfg tip msg st.pool.chain false).1
            ∨ (Hdr.onHeaders cfg st msg now).pool.chain
              = (Hdr.onHeadersGo cfg tip msg st.pool.chain false).1.tail) := by
  unfold Hdr.onHeaders
  dsimp only
  split_ifs with h1 h2 h3 h4 h5
  · exact Or.inl rfl
  · exact Or.inl rfl
  · exact Or.inl rfl
  · cases htip : st.pool.headerTip with
    | none =>
      simp only [htip]
      exact Or.inl trivial
    | some tip =>
      simp only [htip]
      rcases hEq : Hdr.onHeadersGo cfg tip msg st.pool.chain false with ⟨chain, cp, out⟩
      refine Or.inr ⟨tip, rfl, h5, ?_⟩
      rcases out with _ | _ | _ | _
      · cases cp
        · exact Or.inl (by simp [hEq])
        · exact Or.inr (by simp [hEq, shiftHeader_chain])
      · exact Or.inl (by simp [hEq])
      · exact Or.inl (by simp [hEq])
      · exact Or.inl (by simp [hEq])
  · exact Or.inl rfl
  · exact Or.inl rfl

/-- C5: every operation on the headers chain — initialization/reset,
appending a headers batch, shifting the head, clearing — preserves
contiguity: in a nonempty chain, adjacent nodes have consecutive heights
and each node's hash is the header hash of a header whose `prev_block` is
the preceding node's hash. -/
theorem c5_headers_chain_contiguous (cfg : Hdr.HCfg) (st st' : Hdr.HState)
    (hl : Hdr.Linked cfg.hashH st.pool.chain) (hstep : Hdr.HdrStep cfg st st') :
    Hdr.Linked cfg.hashH st'.pool.chain := by
  cases hstep with
  | reset tip =>
    unfold Hdr.resetChain Hdr.clearChain
    dsimp only
    split_ifs <;> first | exact hl | trivial
  | clear => trivial
  | shift =>
    rw [shiftHeader_chain]
    cases hch : st.pool.chain with
    | nil => trivial
    | cons a t => exact linked_tail cfg.hashH a t (hch ▸ hl)
  | headers msg now =>
    rcases onHeaders_chain_cases cfg st msg now with h | ⟨tip, htip, hne, h | h⟩
    · exact h ▸ hl
    · exact h ▸ onHeadersGo_linked cfg tip msg st.pool.chain false hl hne
    · rw [h]
      have hgo := onHeadersGo_linked cfg tip msg st.pool.chain false hl hne
      cases hch : (Hdr.onHeadersGo cfg tip msg st.pool.chain false).1 with
      | nil => trivial
      | cons a t => exact linked_tail cfg.hashH a t (hch ▸ hgo)

/-- C5 witness: the contiguity theorem applied to the concrete sync state
receiving the correct checkpoint header. -/
theorem c5_headers_chain_contiguous_witness :
    Hdr.Linked exHCfg.hashH (Hdr.onHeaders exHCfg exHState [⟨9, 5⟩] 0).pool.chain :=
  c5_headers_chain_contiguous exHCfg exHState _ trivial
    (Hdr.HdrStep.headers exHState [⟨9, 5⟩] 0)

/-- Closed form of the getblocks walk: it emits the hashes of the chain
segment truncated at the remaining capacity, the chain end, and the stop
entry, and reports the capacity-filling hash as the continuation. -/
theorem gbGo_spec (rem : List Serve.Entry) (stopLeft : Option Nat) (acc : List Nat)
    (hacc : acc.length < 500) :
    Serve.gbGo rem stopLeft acc =
      (acc.reverse ++ ((rem.take (min (500 - acc.length)
          (min rem.length (Serve.stopDist stopLeft rem.length)))).map Serve.Entry.hash),
       if 500 - acc.length ≤ min rem.length (Serve.stopDist stopLeft rem.length)
       then (rem[500 - acc.length - 1]?).map Serve.Entry.hash else none) := by
  induction rem generalizing stopLeft acc with
  | nil =>
    simp only [Serve.gbGo, List.length_nil, Nat.min_zero, Nat.zero_min, List.take_nil,
      List.map_nil, List.append_nil]
    rw [if_neg (by omega)]
  | cons e t ih =>
    unfold Serve.gbGo
    by_cases hstop : stopLeft = some 0
    · rw [if_pos hstop]
      subst hstop
      simp only [Serve.stopDist, Option.getD_some, Nat.min_zero, List.take_zero,
        List.map_nil, List.append_nil]
      rw [if_neg (by omega)]
    · rw [if_neg hstop]
      have hdist : 1 ≤ Serve.stopDist stopLeft (e :: t).length := by
        rcases stopLeft with _ | k
        · simp [Serve.stopDist]
        · have : k ≠ 0 := fun h => hstop (by rw [h])
          simp [Serve.stopDist]
          omega
      by_cases hfull : acc.length + 1 = 500
      · rw [if_pos hfull]
        have hcap : 500 - acc.length = 1 := by omega
        have hmin : min (500 - acc.length) (min (e :: t).length
            (Serve.stopDist stopLeft (e :: t).length)) = 1 := by
          simp only [List.length_cons] at hdist ⊢
          omega
        rw [hmin, hcap]
        simp [List.take_succ_cons]
        simp only [List.length_cons] at hdist
        omega
      · rw [if_neg hfull]
        rw [ih (stopLeft.map (· - 1)) (e.hash :: acc) (by simp; omega)]
        have hdist2 : Serve.stopDist (stopLeft.map (· - 1)) t.length
            = Serve.stopDist stopLeft (e :: t).length - 1 := by
          rcases stopLeft with _ | k
          · simp [Serve.stopDist]
          · simp [Serve.stopDist]
        have hlen : (e.hash :: acc).length = acc.length + 1 := by simp
        refine Prod.ext ?_ ?_
        · show (e.hash :: acc).reverse ++ _ = acc.reverse ++ _
          rw [hdist2, hlen]
          have hB : min (500 - acc.length) (min (e :: t).length
              (Serve.stopDist stopLeft (e :: t).length))
              = min (500 - (acc.length + 1)) (min t.length
                  (Serve.stopDist stopLeft (e :: t).length - 1)) + 1 := by
            simp only [List.length_cons] at hdist ⊢
            omega
          rw [hB, List.take_succ_cons, List.map_cons, List.reverse_cons,
            List.append_assoc, List.singleton_append]
        · show (if _ then _ else _) = (if _ then _ else _)
          rw [hdist2, hlen]
          have hcond : (500 - (acc.length + 1) ≤ min t.length
              (Serve.stopDist stopLeft (e :: t).length - 1))
              ↔ (500 - acc.length ≤ min (e :: t).length
                  (Serve.stopDist stopLeft (e :: t).length)) := by
            simp only [List.length_cons] at hdist ⊢
            omega
          by_cases hc : 500 - acc.length ≤ min (e :: t).length
              (Serve.stopDist stopLeft (e :: t).length)
          · rw [if_pos (hcond.mpr hc), if_pos hc]
            have hidx : 500 - acc.length - 1 = (500 - (acc.length + 1) - 1) + 1 := by
              simp only [List.length_cons] at hc hdist
              omega
            rw [hidx, List.getElem?_cons_succ]
          · rw [if_neg (fun hx => hc (hcond.mp hx)), if_neg hc]

/-- C8: in response to getblocks (when synced), the node walks the main
chain from the successor of the locator entry, emitting a contiguous
segment of consecutive block hashes that stops at the stop entry, the chain
end, or exactly 500 items; when truncated at 500 the 500th hash becomes the
peer's continuation hash; and serving an item bearing the continuation hash
sends a one-element inv of the current chain tip and clears the marker. -/
theorem c8_getblocks_walk (chain : List Serve.Entry) (locIdx : Option Nat)
    (stopHash : Nat) (p : Serve.SPeer) :
    (Serve.onGetblocks true chain locIdx stopHash p).2
        = some (((Serve.gbRemaining chain locIdx).take
            (min 500 (min (Serve.gbRemaining chain locIdx).length
              (Serve.stopDist (Serve.gbStopLeft chain locIdx stopHash)
                (Serve.gbRemaining chain locIdx).length)))).map Serve.Entry.hash)
      ∧ (Serve.onGetblocks true chain locIdx stopHash p).1
        = (if 500 ≤ min (Serve.gbRemaining chain locIdx).length
              (Serve.stopDist (Serve.gbStopLeft chain locIdx stopHash)
                (Serve.gbRemaining chain locIdx).length)
           then ((Serve.gbRemaining chain locIdx)[499]?).map Serve.Entry.hash
           else none).elim p (fun h => { p with hashContinue := h })
      ∧ (∀ q : Serve.SPeer, ∀ tip : Nat,
          Serve.serveItemContinue q q.hashContinue tip
            = ({ q with hashContinue := 0 }, some [tip])) := by
  refine ⟨?_, ?_, ?_⟩
  · unfold Serve.onGetblocks
    rw [if_neg (by simp)]
    dsimp only
    rw [gbGo_spec _ _ [] (by simp)]
    simp
  · unfold Serve.onGetblocks
    rw [if_neg (by simp)]
    dsimp only
    rw [gbGo_spec _ _ [] (by simp)]
    dsimp only
    simp only [List.length_nil, Nat.sub_zero]
    by_cases hc : 500 ≤ min (Serve.gbRemaining chain locIdx).length
        (Serve.stopDist (Serve.gbStopLeft chain locIdx stopHash)
          (Serve.gbRemaining chain locIdx).length)
    · rw [if_pos hc]
      cases hx : ((Serve.gbRemaining chain locIdx)[499]?) with
      | none => simp [hx]
      | some e => simp [hx]
    · rw [if_neg hc]
      simp
  · intro q tip
    unfold Serve.serveItemContinue
    rw [if_pos rfl]

/-! ### C1: correspondence between pool-wide in-flight sets and per-peer maps -/

theorem tabHas_tabPut_self (m : List (Nat × Int)) (h : Nat) (v : Int) :
    Flight.tabHas (Flight.tabPut m h v) h = true := by
  unfold Flight.tabPut
  split
  · assumption
  · simp [Flight.tabHas]

theorem tabHas_tabPut_other (m : List (Nat × Int)) (h : Nat) (v : Int) (x : Nat)
    (hx : x ≠ h) : Flight.tabHas (Flight.tabPut m h v) x = Flight.tabHas m x := by
  unfold Flight.tabPut
  split
  · rfl
  · simp [Flight.tabHas, hx, Ne.symm hx]

theorem tabHas_tabDel_self (m : List (Nat × Int)) (h : Nat) :
    Flight.tabHas (Flight.tabDel m h) h = false := by
  unfold Flight.tabDel Flight.tabHas
  simp [List.any_filter]

theorem tabHas_tabDel_other (m : List (Nat × Int)) (h : Nat) (x : Nat)
    (hx : x ≠ h) : Flight.tabHas (Flight.tabDel m h) x = Flight.tabHas m x := by
  induction m with
  | nil => rfl
  | cons kv t ih =>
    unfold Flight.tabDel Flight.tabHas at ih ⊢
    rw [List.filter_cons]
    by_cases hk : kv.1 = h
    · rw [if_neg (by simp [hk]), ih, List.any_cons]
      have hkx : (kv.1 == x) = false := by simp [hk, Ne.symm hx]
      rw [hkx]
      simp
    · rw [if_pos (by simp [hk]), List.any_cons, List.any_cons, ih]

theorem contains_setPut_self (s : List Nat) (h : Nat) :
    (Flight.setPut s h).contains h = true := by
  unfold Flight.setPut
  split
  · assumption
  · simp

theorem contains_setPut_other (s : List Nat) (h : Nat) (x : Nat) (hx : x ≠ h) :
    (Flight.setPut s h).contains x = s.contains x := by
  unfold Flight.setPut
  split
  · rfl
  · simp [hx]

theorem contains_setDel (s : List Nat) (h : Nat) (x : Nat) :
    (Flight.setDel s h).contains x = (s.contains x && !(x == h)) := by
  induction s with
  | nil => rfl
  | cons a t ih =>
    unfold Flight.setDel at ih ⊢
    rw [List.filter_cons]
    by_cases ha : a = h
    · rw [if_neg (by simp [ha]), ih]
      by_cases hxh : x = h
      · simp [hxh]
      · simp [hxh, ha, show (a == x) = false from by simp [ha]; omega]
    · rw [if_pos (by simp [ha])]
      by_cases hax : x = a
      · simp [hax, Ne.symm ha]
        exact ha
      · simp only [List.contains_cons, show (x == a) = false from by simp [hax],
          Bool.false_or, ih]

theorem holders_append (proj : Flight.FPeer → List (Nat × Int)) (l : List Flight.FPeer)
    (p : Flight.FPeer) (h : Nat) :
    Flight.holders proj (l ++ [p]) h
      = Flight.holders proj l h + (if Flight.tabHas (proj p) h then 1 else 0) := by
  unfold Flight.holders
  rw [List.countP_append]
  simp [List.countP_cons]

theorem eraseIdx_set {α : Type} (l : List α) (i : Nat) (p : α) :
    (l.set i p).eraseIdx i = l.eraseIdx i := by
  induction l generalizing i with
  | nil => rfl
  | cons a t ih =>
    cases i with
    | zero => rfl
    | succ j => simp [List.set, List.eraseIdx, ih]

theorem get?_set_eq {α : Type} (l : List α) (i : Nat) (p : α) (q : α)
    (hget : l.get? i = some q) : (l.set i p).get? i = some p := by
  induction l generalizing i with
  | nil => simp at hget
  | cons a t ih =>
    cases i with
    | zero => rfl
    | succ j => exact ih j (by simpa using hget)

theorem holders_eraseIdx (proj : Flight.FPeer → List (Nat × Int)) (l : List Flight.FPeer)
    (i : Nat) (peer : Flight.FPeer) (h : Nat) (hget : l.get? i = some peer) :
    Flight.holders proj (l.eraseIdx i) h
        + (if Flight.tabHas (proj peer) h then 1 else 0)
      = Flight.holders proj l h := by
  induction l generalizing i with
  | nil => simp at hget
  | cons a t ih =>
    cases i with
    | zero =>
      simp only [List.get?] at hget
      injection hget with hq
      subst hq
      unfold Flight.holders
      simp [List.eraseIdx, List.countP_cons]
    | succ j =>
      have hget2 : t.get? j = some peer := by simpa using hget
      unfold Flight.holders at ih ⊢
      simp only [List.eraseIdx, List.countP_cons]
      have := ih j hget2
      omega

theorem holders_pos (proj : Flight.FPeer → List (Nat × Int)) (l : List Flight.FPeer)
    (i : Nat) (peer : Flight.FPeer) (h : Nat) (hget : l.get? i = some peer)
    (hh : Flight.tabHas (proj peer) h = true) : 1 ≤ Flight.holders proj l h := by
  unfold Flight.holders
  rw [Nat.succ_le_iff, List.countP_pos_iff]
  exact ⟨peer, List.get?_mem hget, hh⟩

theorem famInv_othersForm (proj : Flight.FPeer → List (Nat × Int)) (l : List Flight.FPeer)
    (i : Nat) (peer : Flight.FPeer) (s : List Nat) (hget : l.get? i = some peer)
    (hinv : Flight.FamInv proj l s) :
    ∀ h, Flight.holders proj (l.eraseIdx i) h
        + (if Flight.tabHas (proj peer) h then 1 else 0)
      = if s.contains h then 1 else 0 := by
  intro h
  rw [holders_eraseIdx proj l i peer h hget]
  exact hinv h

theorem famInv_fromOthers (proj : Flight.FPeer → List (Nat × Int)) (l : List Flight.FPeer)
    (i : Nat) (peer p' : Flight.FPeer) (s' : List Nat) (hget : l.get? i = some peer)
    (hinv : ∀ h, Flight.holders proj (l.eraseIdx i) h
        + (if Flight.tabHas (proj p') h then 1 else 0)
      = if s'.contains h then 1 else 0) :
    Flight.FamInv proj (l.set i p') s' := by
  intro h
  have hg : (l.set i p').get? i = some p' := get?_set_eq l i p' peer hget
  have he := holders_eraseIdx proj (l.set i p') i p' h hg
  rw [eraseIdx_set] at he
  rw [← he]
  exact hinv h

theorem requestGo_inv (synced : Bool) (spread : Int) (hashes : List Nat)
    (now : Int) (pset : List Nat) (pmap : List (Nat × Int)) (count : Nat)
    (others : Nat → Nat)
    (hinv : ∀ h, others h + (if Flight.tabHas pmap h then 1 else 0)
        = if pset.contains h then 1 else 0) :
    ∀ h, others h
        + (if Flight.tabHas
              (Flight.requestGo synced spread hashes now pset pmap count).2.1 h
           then 1 else 0)
      = if (Flight.requestGo synced spread hashes now pset pmap count).1.contains h
        then 1 else 0 := by
  induction hashes generalizing now pset pmap count with
  | nil => simpa [Flight.requestGo] using hinv
  | cons x rest ih =>
    unfold Flight.requestGo
    by_cases hx : pset.contains x = true
    · rw [if_pos hx]
      exact ih now pset pmap count hinv
    · rw [if_neg hx]
      apply ih
      intro h
      by_cases hxh : h = x
      · subst hxh
        have h0 := hinv h
        rw [if_neg hx] at h0
        rw [tabHas_tabPut_self, contains_setPut_self]
        split at h0 <;> omega
      · rw [tabHas_tabPut_other _ _ _ _ hxh, contains_setPut_other _ _ _ hxh]
        exact hinv h

theorem inv_update (s : Flight.FPool) (i : Nat) (peer p' : Flight.FPeer)
    (bs ts cs : List Nat) (hget : s.peers.get? i = some peer)
    (hb : ∀ h, Flight.holders (fun q => q.blockMap) (s.peers.eraseIdx i) h
        + (if Flight.tabHas p'.blockMap h then 1 else 0)
      = if bs.contains h then 1 else 0)
    (ht : ∀ h, Flight.holders (fun q => q.txMap) (s.peers.eraseIdx i) h
        + (if Flight.tabHas p'.txMap h then 1 else 0)
      = if ts.contains h then 1 else 0)
    (hc : ∀ h, Flight.holders (fun q => q.compactMap) (s.peers.eraseIdx i) h
        + (if Flight.tabHas p'.compactMap h then 1 else 0)
      = if cs.contains h then 1 else 0) :
    Flight.Inv { peers := s.peers.set i p', blockSet := bs, txSet := ts, compactSet := cs } :=
  ⟨famInv_fromOthers _ _ _ peer _ _ hget hb,
   famInv_fromOthers _ _ _ peer _ _ hget ht,
   famInv_fromOthers _ _ _ peer _ _ hget hc⟩

theorem others_same (proj : Flight.FPeer → List (Nat × Int)) (l : List Flight.FPeer)
    (i : Nat) (peer : Flight.FPeer) (s : List Nat) (m : List (Nat × Int))
    (hget : l.get? i = some peer) (hinv : Flight.FamInv proj l s) (hm : m = proj peer) :
    ∀ h, Flight.holders proj (l.eraseIdx i) h + (if Flight.tabHas m h then 1 else 0)
      = if s.contains h then 1 else 0 := by
  intro h
  rw [hm]
  exact famInv_othersForm proj l i peer s hget hinv h

theorem others_insert (proj : Flight.FPeer → List (Nat × Int)) (l : List Flight.FPeer)
    (i : Nat) (peer : Flight.FPeer) (s : List Nat) (h0 : Nat) (v : Int)
    (hget : l.get? i = some peer) (hinv : Flight.FamInv proj l s)
    (hnotin : ¬ s.contains h0 = true) :
    ∀ h, Flight.holders proj (l.eraseIdx i) h
        + (if Flight.tabHas (Flight.tabPut (proj peer) h0 v) h then 1 else 0)
      = if (Flight.setPut s h0).contains h then 1 else 0 := by
  intro h
  by_cases hh : h = h0
  · subst hh
    have h1 := famInv_othersForm proj l i peer s hget hinv h
    rw [if_neg hnotin] at h1
    rw [tabHas_tabPut_self, contains_setPut_self]
    split at h1 <;> omega
  · rw [tabHas_tabPut_other _ _ _ _ hh, contains_setPut_other _ _ _ hh]
    exact famInv_othersForm proj l i peer s hget hinv h

theorem others_delete (proj : Flight.FPeer → List (Nat × Int)) (l : List Flight.FPeer)
    (i : Nat) (peer : Flight.FPeer) (s : List Nat) (h0 : Nat)
    (hget : l.get? i = some peer) (hinv : Flight.FamInv proj l s)
    (hhas : Flight.tabHas (proj peer) h0 = true) :
    ∀ h, Flight.holders proj (l.eraseIdx i) h
        + (if Flight.tabHas (Flight.tabDel (proj peer) h0) h then 1 else 0)
      = if (Flight.setDel s h0).contains h then 1 else 0 := by
  intro h
  by_cases hh : h = h0
  · subst hh
    have h1 := famInv_othersForm proj l i peer s hget hinv h
    rw [hhas, if_pos rfl] at h1
    rw [tabHas_tabDel_self, contains_setDel]
    have : (h == h) = true := by simp
    rw [this]
    simp only [Bool.not_true, Bool.and_false]
    rw [if_neg (by simp)]
    split at h1 <;> omega
  · rw [tabHas_tabDel_other _ _ _ hh, contains_setDel]
    have : (h == h0) = false := by simp [hh]
    rw [this]
    simp only [Bool.not_false, Bool.and_true]
    exact famInv_othersForm proj l i peer s hget hinv h

theorem addPeer_inv (s : Flight.FPool) (st : PeerState) (hinv : Flight.Inv s) :
    Flight.Inv (Flight.addPeer s st) := by
  obtain ⟨h1, h2, h3⟩ := hinv
  refine ⟨fun h => ?_, fun h => ?_, fun h => ?_⟩ <;>
  · show Flight.holders _ (s.peers ++ [_]) h = _
    rw [holders_append]
    first
      | (rw [show Flight.tabHas ([] : List (Nat × Int)) h = false from rfl,
          if_neg Bool.false_ne_true, Nat.add_zero]
         first | exact h1 h | exact h2 h | exact h3 h)

theorem setState_inv (s : Flight.FPool) (i : Nat) (st : PeerState)
    (hinv : Flight.Inv s) : Flight.Inv (Flight.setState s i st) := by
  unfold Flight.setState
  cases hget : s.peers.get? i with
  | none => exact hinv
  | some peer =>
    obtain ⟨h1, h2, h3⟩ := hinv
    exact inv_update s i peer _ _ _ _ hget
      (others_same _ _ _ _ _ _ hget h1 rfl)
      (others_same _ _ _ _ _ _ hget h2 rfl)
      (others_same _ _ _ _ _ _ hget h3 rfl)

theorem resolveBlock_inv (s : Flight.FPool) (i : Nat) (h : Nat)
    (hinv : Flight.Inv s) : Flight.Inv (Flight.resolveBlock s i h) := by
  unfold Flight.resolveBlock
  cases hget : s.peers.get? i with
  | none => exact hinv
  | some peer =>
    dsimp only
    obtain ⟨h1, h2, h3⟩ := hinv
    by_cases hh : Flight.tabHas peer.blockMap h = true
    · rw [if_pos hh]
      exact inv_update s i peer _ _ _ _ hget
        (others_delete _ _ _ _ _ _ hget h1 hh)
        (others_same _ _ _ _ _ _ hget h2 rfl)
        (others_same _ _ _ _ _ _ hget h3 rfl)
    · rw [if_neg hh]
      exact ⟨h1, h2, h3⟩

theorem resolveTx_inv (s : Flight.FPool) (i : Nat) (h : Nat)
    (hinv : Flight.Inv s) : Flight.Inv (Flight.resolveTx s i h) := by
  unfold Flight.resolveTx
  cases hget : s.peers.get? i with
  | none => exact hinv
  | some peer =>
    dsimp only
    obtain ⟨h1, h2, h3⟩ := hinv
    by_cases hh : Flight.tabHas peer.txMap h = true
    · rw [if_pos hh]
      exact inv_update s i peer _ _ _ _ hget
        (others_same _ _ _ _ _ _ hget h1 rfl)
        (others_delete _ _ _ _ _ _ hget h2 hh)
        (others_same _ _ _ _ _ _ hget h3 rfl)
    · rw [if_neg hh]
      exact ⟨h1, h2, h3⟩

theorem requestBlocks_inv (s : Flight.FPool) (i : Nat) (hashes : List Nat) (now : Int)
    (synced : Bool) (hinv : Flight.Inv s) :
    Flight.Inv (Flight.requestBlocks s i hashes now synced) := by
  unfold Flight.requestBlocks
  cases hget : s.peers.get? i with
  | none => exact hinv
  | some peer =>
    dsimp only
    obtain ⟨h1, h2, h3⟩ := hinv
    by_cases hst : peer.state ≠ PeerState.connected
    · rw [if_pos hst]
      exact ⟨h1, h2, h3⟩
    · rw [if_neg hst]
      rcases hr : Flight.requestGo synced 100 hashes now s.blockSet peer.blockMap 0
        with ⟨pset, pmap, count⟩
      have hgo := requestGo_inv synced 100 hashes now s.blockSet peer.blockMap 0
        (fun x => Flight.holders (fun q => q.blockMap) (s.peers.eraseIdx i) x)
        (fun x => famInv_othersForm _ _ _ _ _ hget h1 x)
      rw [hr] at hgo
      dsimp only at hgo
      by_cases hcnt : count = 0
      · rw [if_pos hcnt]
        exact inv_update s i peer _ _ _ _ hget hgo
          (others_same _ _ _ _ _ _ hget h2 rfl)
          (others_same _ _ _ _ _ _ hget h3 rfl)
      · rw [if_neg hcnt]
        by_cases hfull : Flight.maxBlockRequest ≤ pmap.length
        · rw [if_pos hfull]
          exact inv_update s i peer _ _ _ _ hget hgo
            (others_same _ _ _ _ _ _ hget h2 rfl)
            (others_same _ _ _ _ _ _ hget h3 rfl)
        · rw [if_neg hfull]
          exact inv_update s i peer _ _ _ _ hget hgo
            (others_same _ _ _ _ _ _ hget h2 rfl)
            (others_same _ _ _ _ _ _ hget h3 rfl)

theorem requestTxs_inv (s : Flight.FPool) (i : Nat) (hashes : List Nat) (now : Int)
    (synced : Bool) (hinv : Flight.Inv s) :
    Flight.Inv (Flight.requestTxs s i hashes now synced) := by
  unfold Flight.requestTxs
  cases hget : s.peers.get? i with
  | none => exact hinv
  | some peer =>
    dsimp only
    obtain ⟨h1, h2, h3⟩ := hinv
    by_cases hst : peer.state ≠ PeerState.connected
    · rw [if_pos hst]
      exact ⟨h1, h2, h3⟩
    · rw [if_neg hst]
      rcases hr : Flight.requestGo synced 50 hashes now s.txSet peer.txMap 0
        with ⟨pset, pmap, count⟩
      have hgo := requestGo_inv synced 50 hashes now s.txSet peer.txMap 0
        (fun x => Flight.holders (fun q => q.txMap) (s.peers.eraseIdx i) x)
        (fun x => famInv_othersForm _ _ _ _ _ hget h2 x)
      rw [hr] at hgo
      dsimp only at hgo
      by_cases hcnt : count = 0
      · rw [if_pos hcnt]
        exact inv_update s i peer _ _ _ _ hget
          (others_same _ _ _ _ _ _ hget h1 rfl) hgo
          (others_same _ _ _ _ _ _ hget h3 rfl)
      · rw [if_neg hcnt]
        by_cases hfull : Flight.maxBlockRequest ≤ pmap.length
        · rw [if_pos hfull]
          exact inv_update s i peer _ _ _ _ hget
            (others_same _ _ _ _ _ _ hget h1 rfl) hgo
            (others_same _ _ _ _ _ _ hget h3 rfl)
        · rw [if_neg hfull]
          exact inv_update s i peer _ _ _ _ hget
            (others_same _ _ _ _ _ _ hget h1 rfl) hgo
            (others_same _ _ _ _ _ _ hget h3 rfl)

theorem contains_foldDel (m : List (Nat × Int)) (s : List Nat) (h : Nat) :
    (m.foldl (fun acc kv => Flight.setDel acc kv.1) s).contains h
      = (s.contains h && !(Flight.tabHas m h)) := by
  induction m generalizing s with
  | nil => simp [Flight.tabHas]
  | cons kv t ih =>
    rw [List.foldl_cons, ih, contains_setDel]
    unfold Flight.tabHas
    rw [List.any_cons]
    by_cases hk : h = kv.1
    · simp [hk]
    · simp [hk, show (kv.1 == h) = false from by simp [Ne.symm hk],
        show (h == kv.1) = false from by simp [hk]]

theorem removePeer_famInv (proj : Flight.FPeer → List (Nat × Int))
    (l : List Flight.FPeer) (i : Nat) (peer : Flight.FPeer) (s : List Nat)
    (hget : l.get? i = some peer) (hinv : Flight.FamInv proj l s) :
    Flight.FamInv proj (l.eraseIdx i)
      ((proj peer).foldl (fun acc kv => Flight.setDel acc kv.1) s) := by
  intro h
  have h0 := famInv_othersForm proj l i peer s hget hinv h
  rw [contains_foldDel]
  by_cases hh : Flight.tabHas (proj peer) h = true
  · rw [hh, if_pos rfl] at h0
    rw [hh]
    simp only [Bool.not_true, Bool.and_false]
    rw [if_neg (by simp)]
    split at h0 <;> omega
  · rw [if_neg hh, Nat.add_zero] at h0
    rw [Bool.not_eq_true] at hh
    rw [hh]
    simp only [Bool.not_false, Bool.and_true]
    exact h0

theorem removePeer_inv (s : Flight.FPool) (i : Nat) (hinv : Flight.Inv s) :
    Flight.Inv (Flight.removePeer s i) := by
  unfold Flight.removePeer
  cases hget : s.peers.get? i with
  | none => exact hinv
  | some peer =>
    dsimp only
    obtain ⟨h1, h2, h3⟩ := hinv
    exact ⟨removePeer_famInv _ _ _ _ _ hget h1,
           removePeer_famInv _ _ _ _ _ hget h2,
           removePeer_famInv _ _ _ _ _ hget h3⟩

theorem banPeer_blockMap (p : Flight.FPeer) (k : Nat) :
    (Flight.banPeer p k).blockMap = p.blockMap := by
  unfold Flight.banPeer
  dsimp only
  split <;> rfl

theorem banPeer_txMap (p : Flight.FPeer) (k : Nat) :
    (Flight.banPeer p k).txMap = p.txMap := by
  unfold Flight.banPeer
  dsimp only
  split <;> rfl

theorem banPeer_compactMap (p : Flight.FPeer) (k : Nat) :
    (Flight.banPeer p k).compactMap = p.compactMap := by
  unfold Flight.banPeer
  dsimp only
  split <;> rfl

theorem inv_set_same_maps (s : Flight.FPool) (i : Nat) (peer p' : Flight.FPeer)
    (hget : s.peers.get? i = some peer) (hinv : Flight.Inv s)
    (hb : p'.blockMap = peer.blockMap) (ht : p'.txMap = peer.txMap)
    (hc : p'.compactMap = peer.compactMap) :
    Flight.Inv { s with peers := s.peers.set i p' } := by
  obtain ⟨h1, h2, h3⟩ := hinv
  exact inv_update s i peer p' _ _ _ hget
    (others_same _ _ _ _ _ _ hget h1 hb)
    (others_same _ _ _ _ _ _ hget h2 ht)
    (others_same _ _ _ _ _ _ hget h3 hc)

theorem cmpct_tail_inv (s1 : Flight.FPool) (i h : Nat) (now : Int)
    (peer1 : Flight.FPeer) (hok : Bool) (rc : Int) (fill : Bool)
    (hg : s1.peers.get? i = some peer1) (hs1 : Flight.Inv s1)
    (hcset : ¬ s1.compactSet.contains h = true) :
    Flight.Inv
      (if ¬hok then { s1 with peers := s1.peers.set i (Flight.banPeer peer1 100) }
       else if rc = -1 then { s1 with peers := s1.peers.set i (Flight.banPeer peer1 100) }
       else if rc = 0 then { s1 with peers := s1.peers.set i (Flight.banPeer peer1 10) }
       else if fill then Flight.resolveBlock s1 i h
       else if 15 ≤ peer1.compactMap.length then
         { s1 with peers := s1.peers.set i { peer1 with state := PeerState.dead } }
       else { s1 with compactSet := Flight.setPut s1.compactSet h,
                      peers := s1.peers.set i
                        { peer1 with compactMap := Flight.tabPut peer1.compactMap h now } }) := by
  obtain ⟨g1, g2, g3⟩ := hs1
  split_ifs with e1 e2 e3 e4 e5
  all_goals first
  | exact resolveBlock_inv s1 i h ⟨g1, g2, g3⟩
  | exact inv_update s1 i peer1 _ _ _ _ hg
      (others_same _ _ _ _ _ _ hg g1 rfl)
      (others_same _ _ _ _ _ _ hg g2 rfl)
      (others_insert _ _ _ _ _ _ now hg g3 hcset)
  | exact inv_set_same_maps s1 i peer1 _ hg ⟨g1, g2, g3⟩
      (banPeer_blockMap _ _) (banPeer_txMap _ _) (banPeer_compactMap _ _)
  | exact inv_set_same_maps s1 i peer1 _ hg ⟨g1, g2, g3⟩ rfl rfl rfl

theorem onBlocktxn_inv (s : Flight.FPool) (i : Nat) (h : Nat) (fill : Bool)
    (hinv : Flight.Inv s) : Flight.Inv (Flight.onBlocktxn s i h fill) := by
  unfold Flight.onBlocktxn
  cases hget : s.peers.get? i with
  | none => exact hinv
  | some peer =>
    dsimp only
    obtain ⟨h1, h2, h3⟩ := hinv
    by_cases hh : Flight.tabHas peer.compactMap h = true
    · rw [if_neg (by simpa using hh)]
      have hs1 : Flight.Inv
          { peers := s.peers.set i { peer with compactMap := Flight.tabDel peer.compactMap h },
            blockSet := s.blockSet, txSet := s.txSet,
            compactSet := Flight.setDel s.compactSet h } :=
        inv_update s i peer _ _ _ _ hget
          (others_same _ _ _ _ _ _ hget h1 rfl)
          (others_same _ _ _ _ _ _ hget h2 rfl)
          (others_delete _ _ _ _ _ _ hget h3 hh)
      have hg : (s.peers.set i { peer with compactMap := Flight.tabDel peer.compactMap h }).get? i
          = some { peer with compactMap := Flight.tabDel peer.compactMap h } :=
        get?_set_eq _ _ _ peer hget
      by_cases hf : fill = true
      · rw [if_pos hf]
        exact resolveBlock_inv _ i h hs1
      · rw [if_neg hf]
        exact inv_set_same_maps _ i _ _ hg hs1
          (banPeer_blockMap _ _) (banPeer_txMap _ _) (banPeer_compactMap _ _)
    · rw [if_pos (by simpa using hh)]
      exact ⟨h1, h2, h3⟩

theorem onCmpctblock_inv (s : Flight.FPool) (i : Nat) (h : Nat) (now : Int)
    (ca : Bool) (bm : Nat) (hok : Bool) (rc : Int) (fill : Bool)
    (hinv : Flight.Inv s) :
    Flight.Inv (Flight.onCmpctblock s i h now ca bm hok rc fill) := by
  unfold Flight.onCmpctblock
  cases hget : s.peers.get? i with
  | none => exact hinv
  | some peer =>
    dsimp only
    obtain ⟨h1, h2, h3⟩ := hinv
    by_cases hca : ca = true
    · rw [if_neg (by simp [hca])]
      by_cases hdupP : Flight.tabHas peer.compactMap h = true
      · rw [if_pos hdupP]
        exact ⟨h1, h2, h3⟩
      · rw [if_neg hdupP]
        by_cases hdupS : s.compactSet.contains h = true
        · rw [if_pos hdupS]
          exact ⟨h1, h2, h3⟩
        · rw [if_neg hdupS]
          by_cases hur : Flight.tabHas peer.blockMap h = true
          · have hX : ¬¬(Flight.tabHas peer.blockMap h = true) := by simpa using hur
            rw [if_neg (by simp [hur]), if_neg (by simp [hur]), if_neg hX, if_neg hX]
            exact cmpct_tail_inv _ i h now peer hok rc fill
              (get?_set_eq _ _ _ peer hget)
              (inv_update s i peer _ _ _ _ hget
                (others_same _ _ _ _ _ _ hget h1 rfl)
                (others_same _ _ _ _ _ _ hget h2 rfl)
                (others_same _ _ _ _ _ _ hget h3 rfl))
              hdupS
          · have hX : ¬(Flight.tabHas peer.blockMap h = true) := hur
            by_cases hbm : bm = 1
            · rw [if_neg (by simp [hbm])]
              by_cases hbs : s.blockSet.contains h = true
              · rw [if_pos ⟨hX, hbs⟩]
                exact ⟨h1, h2, h3⟩
              · rw [if_neg (fun hcon => hbs hcon.2), if_pos hX, if_pos hX]
                exact cmpct_tail_inv _ i h now _ hok rc fill
                  (get?_set_eq _ _ _ peer hget)
                  (inv_update s i peer _ _ _ _ hget
                    (others_insert _ _ _ _ _ _ now hget h1 hbs)
                    (others_same _ _ _ _ _ _ hget h2 rfl)
                    (others_same _ _ _ _ _ _ hget h3 rfl))
                  hdupS
            · rw [if_pos ⟨hX, hbm⟩]
              exact inv_set_same_maps s i peer _ hget ⟨h1, h2, h3⟩ rfl rfl rfl
    · rw [if_pos (by simp [hca])]
      exact inv_set_same_maps s i peer _ hget ⟨h1, h2, h3⟩ rfl rfl rfl

theorem step_inv {s s' : Flight.FPool} (hstep : Flight.Step s s')
    (hinv : Flight.Inv s) : Flight.Inv s' := by
  cases hstep with
  | addPeer st => exact addPeer_inv s st hinv
  | setState i st => exact setState_inv s i st hinv
  | requestBlocks i hashes now synced => exact requestBlocks_inv s i hashes now synced hinv
  | requestTxs i hashes now synced => exact requestTxs_inv s i hashes now synced hinv
  | resolveBlock i h => exact resolveBlock_inv s i h hinv
  | resolveTx i h => exact resolveTx_inv s i h hinv
  | cmpctblock i h now ca bm hok rc fill => exact onCmpctblock_inv s i h now ca bm hok rc fill hinv
  | blocktxn i h fill => exact onBlocktxn_inv s i h fill hinv
  | removePeer i => exact removePeer_inv s i hinv

theorem initPool_inv : Flight.Inv Flight.initPool := by
  refine ⟨?_, ?_, ?_⟩ <;> intro h <;> rfl

theorem reachable_inv {s : Flight.FPool} (hs : Flight.Reachable s) : Flight.Inv s := by
  induction hs with
  | init => exact initPool_inv
  | step _ hstep ih => exact step_inv hstep ih

/-- C1: in every pool state reachable by the in-flight operations
(peer registration and close, getdata batches for blocks and txs,
resolution on block/tx arrival, cmpctblock and blocktxn handling, and
peer removal), each hash in the pool-wide `block_set`, `tx_set` and
`compact_set` is carried in the corresponding per-peer map
(`block_map`, `tx_map`, `compact_map`) of exactly one peer. -/
theorem c1_inflight_correspondence (s : Flight.FPool) (hs : Flight.Reachable s) :
    (∀ h, s.blockSet.contains h = true →
        s.peers.countP (fun p => Flight.tabHas p.blockMap h) = 1)
    ∧ (∀ h, s.txSet.contains h = true →
        s.peers.countP (fun p => Flight.tabHas p.txMap h) = 1)
    ∧ (∀ h, s.compactSet.contains h = true →
        s.peers.countP (fun p => Flight.tabHas p.compactMap h) = 1) := by
  obtain ⟨h1, h2, h3⟩ := reachable_inv hs
  refine ⟨fun h hc => ?_, fun h hc => ?_, fun h hc => ?_⟩
  · have := h1 h
    rw [if_pos hc] at this
    exact this
  · have := h2 h
    rw [if_pos hc] at this
    exact this
  · have := h3 h
    rw [if_pos hc] at this
    exact this

theorem c1_inflight_correspondence_witness :
    (Flight.requestBlocks (Flight.addPeer Flight.initPool PeerState.connected)
        0 [7] 0 false).peers.countP
      (fun p => Flight.tabHas p.blockMap 7) = 1 := by
  have hr : Flight.Reachable
      (Flight.requestBlocks (Flight.addPeer Flight.initPool PeerState.connected) 0 [7] 0 false) :=
    Flight.Reachable.step
      (Flight.Reachable.step Flight.Reachable.init
        (Flight.Step.addPeer Flight.initPool PeerState.connected))
      (Flight.Step.requestBlocks (Flight.addPeer Flight.initPool PeerState.connected) 0 [7] 0 false)
  exact (c1_inflight_correspondence _ hr).1 7 (by decide)

end Mako
